import Mathlib

/-!
Shallow embedding of the package-resolution core of download-mingw-rpm.py
(functions `_findPackage`, `_checkPackageRequirements`, `packagesDownload`
and the token-matching code they use), together with proofs about it.

Modelling conventions:
* Python strings are Lean `String`; the helper operations are defined on
  the underlying character lists so that everything reduces.
* Python sets of strings are modelled as duplicate-free `List String`
  values kept in insertion order.  CPython iterates a set in a
  hash-seed-dependent order; where a claim depends on that order the
  definition takes the arrangement as an explicit parameter
  (`checkRequirementsWith`), and the run-fixed embedding instantiates it
  with the identity (insertion order).
* RPM build times are non-negative integers parsed from XML, modelled as
  `Nat`.
* Network, filesystem and logging side effects of the source do not feed
  back into the returned values and are dropped; the returned filename
  list of `packagesDownload` is modelled exactly.
-/

namespace DownloadMingwRpm

/-- Package record parsed from repository metadata (`OpenRepository`,
download-mingw-rpm.py lines 53-60). -/
structure Package where
  name : String
  buildtime : Nat
  url : String
  filename : String
  provides : List String
  requires : List String
deriving DecidableEq, Repr

/-- Python set union `a |= b`: append those members of the iteration
sequence `b` that are not already present, keeping insertion order. -/
def pyUnion (a b : List String) : List String :=
  b.foldl (fun acc x => if x ∈ acc then acc else acc ++ [x]) a

/-- Python set construction from an iteration sequence: keep the first
occurrence of every element. -/
def pyDedup (l : List String) : List String :=
  pyUnion [] l

/-- Python `s.endswith(suffix)`. -/
def pyEndsWith (s suffix : String) : Bool :=
  suffix.data.isSuffixOf s.data

/-- Deletion of every non-overlapping occurrence of the non-empty
pattern `pat`, scanning left to right: Python `s.replace(pat, '')`.
Every recursive call shortens the scanned list, so the fuel argument
bounds the recursion depth; `pyReplaceDel` supplies a fuel exceeding
the list length and the zero-fuel cutoff is never reached. -/
def eraseAllF (pat : List Char) : Nat → List Char → List Char
  | _, [] => []
  | 0, s => s
  | fuel + 1, c :: rest =>
    if pat ≠ [] ∧ pat.isPrefixOf (c :: rest) then
      eraseAllF pat fuel ((c :: rest).drop pat.length)
    else
      c :: eraseAllF pat fuel rest

/-- Python `s.replace(pat, '')` on strings. -/
def pyReplaceDel (s pat : String) : String :=
  String.mk (eraseAllF pat.data (s.data.length + 1) s.data)

/-- Normalization applied to package names before glob matching
(line 92): `p['name'].replace('mingw32-', '').replace('mingw64-', '')`.
Note that Python `str.replace` deletes every occurrence anywhere in the
name, not only a leading prefix. -/
def stripMingw (s : String) : String :=
  pyReplaceDel (pyReplaceDel s "mingw32-") "mingw64-"

/-- Scan for the closing bracket of a glob character class, returning
the class body before it and the remainder after it. -/
def classScan : List Char → Option (List Char × List Char)
  | [] => none
  | c :: rest =>
    if c = ']' then some ([], rest)
    else (classScan rest).map (fun pr => (c :: pr.1, pr.2))

/-- Locate the body of a glob character class after an opening bracket,
following fnmatch.translate: the terminating bracket is searched for
only after an optional leading negation mark and an optional immediately
following literal bracket. -/
def classSplit (p : List Char) : Option (List Char × List Char) :=
  match p with
  | '!' :: ']' :: rest => (classScan rest).map (fun pr => ('!' :: ']' :: pr.1, pr.2))
  | '!' :: rest => (classScan rest).map (fun pr => ('!' :: pr.1, pr.2))
  | ']' :: rest => (classScan rest).map (fun pr => (']' :: pr.1, pr.2))
  | _ => classScan p

/-- Membership of a character in a glob class body: `a-b` denotes a
code-point range, every other character is a literal, and a leading or
trailing dash is a literal. -/
def memClass : List Char → Char → Bool
  | a :: '-' :: b :: rest, c => (decide (a ≤ c) && decide (c ≤ b)) || memClass rest c
  | a :: rest, c => (a == c) || memClass rest c
  | [], _ => false

/-- Match of one character against a glob class body with an optional
leading negation mark. -/
def matchClass (stuff : List Char) (c : Char) : Bool :=
  match stuff with
  | '!' :: s => !(memClass s c)
  | s => memClass s c

/-- Glob matcher with fnmatch semantics, pattern against the whole
string.  The fuel argument strictly decreases on every recursive call
while the sum of the two list lengths also strictly decreases, so any
fuel exceeding that sum never runs out; `fnmatchcase` below supplies
such a fuel. -/
def matchGlobF : Nat → List Char → List Char → Bool
  | 0, _, _ => false
  | _ + 1, [], s => s.isEmpty
  | fuel + 1, '*' :: p, s =>
    matchGlobF fuel p s ||
      (match s with
       | [] => false
       | _ :: s2 => matchGlobF fuel ('*' :: p) s2)
  | fuel + 1, '?' :: p, s =>
    (match s with
     | [] => false
     | _ :: s2 => matchGlobF fuel p s2)
  | fuel + 1, '[' :: p, s =>
    (match classSplit p with
     | none =>
       (match s with
        | [] => false
        | c :: s2 => ('[' == c) && matchGlobF fuel p s2)
     | some (stuff, rest) =>
       (match s with
        | [] => false
        | c :: s2 => matchClass stuff c && matchGlobF fuel rest s2))
  | fuel + 1, a :: p, s =>
    (match s with
     | [] => false
     | c :: s2 => (a == c) && matchGlobF fuel p s2)

/-- Python `fnmatch.fnmatchcase(s, pat)`: case-sensitive glob match of
the whole string against the pattern. -/
def fnmatchcase (s pat : String) : Bool :=
  matchGlobF (pat.data.length + s.data.length + 1) pat.data s.data

/-- Provider-name set for one requirement (line 78):
`{p['name'] for p in _packages if requirement in p['provides']}`,
collected in index iteration order. -/
def providersOfNames (idx : List Package) (requirement : String) : List String :=
  pyDedup ((idx.filter (fun p => p.provides.contains requirement)).map Package.name)

/-- Body of the requirement loop of `_checkPackageRequirements`
(lines 77-84) for one requirement: when no provider is among the seen
names and the provider set is non-empty, `providers.pop()` adds one
provider to the accumulated set.  `arrange` models the hash-dependent
order in which CPython iterates the freshly built provider set, so the
pop removes the head of the arranged list. -/
def checkStepWith (arrange : List String → List String) (idx : List Package)
    (packageNames : List String) (allProviders : List String) (requirement : String) :
    List String :=
  let providers := providersOfNames idx requirement
  if providers.any (fun q => packageNames.contains q) then
    allProviders
  else
    match arrange providers with
    | [] => allProviders
    | q :: _ => if q ∈ allProviders then allProviders else allProviders ++ [q]

/-- Requirement check (`_checkPackageRequirements`, lines 75-85) with
the iteration order of each freshly built provider set made explicit. -/
def checkRequirementsWith (arrange : List String → List String)
    (idx : List Package) (package : Package) (packageNames : List String) : List String :=
  package.requires.foldl (checkStepWith arrange idx packageNames) []

/-- Requirement check of the source for one fixed interpreter run, with
set iteration modelled as insertion order. -/
def checkPackageRequirements (idx : List Package) (package : Package)
    (packageNames : List String) : List String :=
  checkRequirementsWith id idx package packageNames

/-- Stable insertion of a package into a buildtime-descending list: the
inserted element goes before the first later element whose buildtime
does not exceed its own. -/
def insertByBuildtimeDesc (x : Package) : List Package → List Package
  | [] => [x]
  | y :: ys =>
    if y.buildtime ≤ x.buildtime then x :: y :: ys else y :: insertByBuildtimeDesc x ys

/-- Python `sorted(l, key=lambda p: p.buildtime, reverse=True)` as a
stable insertion sort: descending buildtime, original order kept among
equal keys. -/
def sortByBuildtimeDesc : List Package → List Package
  | [] => []
  | x :: xs => insertByBuildtimeDesc x (sortByBuildtimeDesc xs)

/-- Package lookup (`_findPackage`, lines 63-72): every index entry
whose name or filename equals the query, newest buildtime first; the
head is returned, `none` when nothing matches.  The multiple-match case
only logs a diagnostic. -/
def findPackage (idx : List Package) (packageName : String) : Option Package :=
  match sortByBuildtimeDesc
      (idx.filter (fun p => packageName == p.name || packageName == p.filename)) with
  | [] => none
  | p :: _ => some p

/-- Names matched by one glob token (line 92):
`{p['name'] for p in _packages if fnmatchcase(normalized name, token)}`. -/
def tokenMatches (idx : List Package) (t : String) : List String :=
  pyDedup ((idx.filter (fun p => fnmatchcase (stripMingw p.name) t)).map Package.name)

/-- Token expansion of `packagesDownload` (lines 90-93): tokens ending
in .rpm are kept literally; every other token glob-matches the
mingw-normalized package names (`matchedpackages or {packageName}`
falls back to the literal token when nothing matches). -/
def expandTokens (idx : List Package) (tokens : List String) : List String :=
  let rpmTokens := pyDedup (tokens.filter (fun t => pyEndsWith t ".rpm"))
  (pyDedup (tokens.filter (fun t => !(pyEndsWith t ".rpm")))).foldl
    (fun acc t =>
      pyUnion acc (if (tokenMatches idx t).isEmpty then [t] else tokenMatches idx t))
    rpmTokens

theorem foldl_invariant {α β : Type} (f : β → α → β) (P : β → Prop)
    (hstep : ∀ b a, P b → P (f b a)) : ∀ (l : List α) (b : β), P b → P (l.foldl f b) := by
  intro l
  induction l with
  | nil => intro b hb; exact hb
  | cons x xs ih => intro b hb; exact ih _ (hstep _ _ hb)

theorem mem_pyUnion {x : String} : ∀ (b a : List String), x ∈ pyUnion a b ↔ x ∈ a ∨ x ∈ b := by
  intro b
  induction b with
  | nil => intro a; simp [pyUnion]
  | cons y ys ih =>
    intro a
    show x ∈ pyUnion (if y ∈ a then a else a ++ [y]) ys ↔ _
    rw [ih]
    by_cases hy : y ∈ a
    · rw [if_pos hy]
      constructor
      · rintro (h | h)
        · exact Or.inl h
        · exact Or.inr (List.mem_cons_of_mem y h)
      · rintro (h | h)
        · exact Or.inl h
        · rcases List.mem_cons.mp h with rfl | h
          · exact Or.inl hy
          · exact Or.inr h
    · rw [if_neg hy]
      simp [List.mem_append, List.mem_cons]
      tauto

theorem nodup_pyUnion : ∀ (b a : List String), a.Nodup → (pyUnion a b).Nodup := by
  intro b
  induction b with
  | nil => intro a ha; exact ha
  | cons y ys ih =>
    intro a ha
    show (pyUnion (if y ∈ a then a else a ++ [y]) ys).Nodup
    apply ih
    by_cases hy : y ∈ a
    · rwa [if_pos hy]
    · rw [if_neg hy]
      rw [List.nodup_append]
      refine ⟨ha, List.nodup_singleton y, ?_⟩
      intro z hz hzy
      rw [List.mem_singleton] at hzy
      exact hy (hzy ▸ hz)

theorem mem_pyDedup {x : String} {l : List String} : x ∈ pyDedup l ↔ x ∈ l := by
  unfold pyDedup
  rw [mem_pyUnion]
  simp

theorem nodup_pyDedup (l : List String) : (pyDedup l).Nodup := by
  unfold pyDedup
  exact nodup_pyUnion l [] List.nodup_nil

theorem mem_providersOfNames {q : String} {idx : List Package} {r : String} :
    q ∈ providersOfNames idx r ↔
      ∃ p ∈ idx, p.provides.contains r = true ∧ p.name = q := by
  unfold providersOfNames
  rw [mem_pyDedup]
  simp [List.mem_filter, eq_comm]
  tauto

/-- Invariant preservation by one requirement step: the collected
provider names stay duplicate-free, none is a seen name, and each is
the name of some index package. -/
theorem checkStepWith_invariant (idx : List Package) (seen : List String)
    (acc : List String) (r : String)
    (hnd : acc.Nodup) (hmem : ∀ d ∈ acc, d ∉ seen ∧ d ∈ idx.map Package.name) :
    (checkStepWith id idx seen acc r).Nodup ∧
      ∀ d ∈ checkStepWith id idx seen acc r, d ∉ seen ∧ d ∈ idx.map Package.name := by
  unfold checkStepWith
  dsimp only [id]
  by_cases hany : (providersOfNames idx r).any (fun q => seen.contains q) = true
  · rw [if_pos hany]
    exact ⟨hnd, hmem⟩
  · rw [if_neg hany]
    cases hp : providersOfNames idx r with
    | nil => exact ⟨hnd, hmem⟩
    | cons q qs =>
      dsimp only
      by_cases hq : q ∈ acc
      · rw [if_pos hq]
        exact ⟨hnd, hmem⟩
      · rw [if_neg hq]
        have hqprov : q ∈ providersOfNames idx r := by
          rw [hp]; exact List.mem_cons_self q qs
        have hqseen : q ∉ seen := by
          intro hcon
          apply hany
          rw [List.any_eq_true]
          exact ⟨q, hqprov, List.elem_eq_true_of_mem hcon⟩
        have hqname : q ∈ idx.map Package.name := by
          obtain ⟨p, hpidx, _, hpn⟩ := mem_providersOfNames.mp hqprov
          exact List.mem_map.mpr ⟨p, hpidx, hpn⟩
        refine ⟨?_, ?_⟩
        · rw [List.nodup_append]
          refine ⟨hnd, List.nodup_singleton q, ?_⟩
          intro z hz hzq
          rw [List.mem_singleton] at hzq
          exact hq (hzq ▸ hz)
        · intro d hd
          rcases List.mem_append.mp hd with hda | hdq
          · exact hmem d hda
          · have : d = q := by simpa using hdq
            subst this
            exact ⟨hqseen, hqname⟩

/-- Invariant of the requirement-check fold: the collected provider
names are duplicate-free, none is already a seen name, and each is the
name of some index package. -/
theorem checkPackageRequirements_spec (idx : List Package) (package : Package)
    (seen : List String) :
    (checkPackageRequirements idx package seen).Nodup ∧
      ∀ d ∈ checkPackageRequirements idx package seen,
        d ∉ seen ∧ d ∈ idx.map Package.name := by
  unfold checkPackageRequirements checkRequirementsWith
  exact foldl_invariant (checkStepWith id idx seen)
    (fun acc => acc.Nodup ∧ ∀ d ∈ acc, d ∉ seen ∧ d ∈ idx.map Package.name)
    (fun acc r h => checkStepWith_invariant idx seen acc r h.1 h.2)
    package.requires [] ⟨List.nodup_nil, by simp⟩

/-- Number of names in `names` not yet absorbed by the seen set; the
download loop's termination measure decreases as the seen set grows. -/
def freshCount (names seen : List String) : Nat :=
  (names.filter (fun n => decide (n ∉ seen))).length

theorem countP_mono_notMem (seen ext l : List String) :
    List.countP (fun n => decide (n ∉ seen ++ ext)) l ≤
      List.countP (fun n => decide (n ∉ seen)) l := by
  apply List.countP_mono_left
  intro a _ ha
  simp only [decide_eq_true_eq, List.mem_append] at ha ⊢
  exact fun hc => ha (Or.inl hc)

theorem freshCount_step (names seen : List String) (d : String)
    (hd : d ∈ names) (hds : d ∉ seen) :
    freshCount names (seen ++ [d]) + 1 ≤ freshCount names seen := by
  unfold freshCount
  rw [← List.countP_eq_length_filter, ← List.countP_eq_length_filter]
  obtain ⟨l1, l2, rfl⟩ := List.append_of_mem hd
  have hd2 : (decide (d ∉ seen ++ [d])) = false := by simp
  have hd1 : (decide (d ∉ seen)) = true := by simpa using hds
  have m1 := countP_mono_notMem seen [d] l1
  have m2 := countP_mono_notMem seen [d] l2
  simp only [List.countP_append, List.countP_cons, hd2, hd1]
  simp only [Bool.false_eq_true, if_false, if_true]
  omega

theorem freshCount_append (names seen deps : List String)
    (hnd : deps.Nodup) (hfresh : ∀ d ∈ deps, d ∉ seen ∧ d ∈ names) :
    freshCount names (seen ++ deps) + deps.length ≤ freshCount names seen := by
  induction deps generalizing seen with
  | nil => simp
  | cons d ds ih =>
    have hdmem : d ∈ d :: ds := List.mem_cons_self d ds
    have h1 := freshCount_step names seen d (hfresh d hdmem).2 (hfresh d hdmem).1
    have hnds : ds.Nodup := (List.nodup_cons.mp hnd).2
    have h2 := ih (seen ++ [d]) hnds ?_
    · rw [show seen ++ d :: ds = (seen ++ [d]) ++ ds from by simp]
      simp only [List.length_cons]
      omega
    · intro e he
      refine ⟨?_, (hfresh e (List.mem_cons_of_mem d he)).2⟩
      have hene : e ∉ seen := (hfresh e (List.mem_cons_of_mem d he)).1
      have hed : e ≠ d := fun hcon => (List.nodup_cons.mp hnd).1 (hcon ▸ he)
      simp [List.mem_append, hene, hed]

/-- Download loop of `packagesDownload` (lines 97-113).  The Python work
list pops from its end, so the queue argument holds the work list
reversed: a pop is the head, and `list.extend(dependencies)` prepends
the reversed dependency names.  The function returns the collected
filename list (the Python return value) together with the final
`allPackageNames` set; the artifact download itself is I/O and does not
influence either. -/
def drainQueue (idx : List Package) (withDeps : Bool) :
    List String → List String → List String → List String × List String
  | [], seen, acc => (acc, seen)
  | n :: rest, seen, acc =>
    match findPackage idx n with
    | none => drainQueue idx withDeps rest seen acc
    | some p =>
      let deps := checkPackageRequirements idx p seen
      if withDeps && !deps.isEmpty then
        drainQueue idx withDeps (deps.reverse ++ rest) (seen ++ deps) (acc ++ [p.filename])
      else
        drainQueue idx withDeps rest seen (acc ++ [p.filename])
termination_by queue seen _ => queue.length + freshCount (pyDedup (idx.map Package.name)) seen
decreasing_by
  · simp only [List.length_cons]
    omega
  · have hspec := checkPackageRequirements_spec idx p seen
    have hle := freshCount_append (pyDedup (idx.map Package.name)) seen
      (checkPackageRequirements idx p seen) hspec.1
      (fun d hd => ⟨(hspec.2 d hd).1, mem_pyDedup.mpr (hspec.2 d hd).2⟩)
    simp only [List.length_append, List.length_reverse, List.length_cons]
    omega
  · simp only [List.length_cons]
    omega

/-- packagesDownload (lines 88-113): expand the requested tokens, then
drain the work list; the returned value is the collected filename
list. -/
def packagesDownload (idx : List Package) (tokens : List String) (withDeps : Bool) :
    List String :=
  (drainQueue idx withDeps (expandTokens idx tokens).reverse (expandTokens idx tokens) []).1

/-- First package of maximal buildtime in list order: the value
`sorted(key=buildtime, reverse=True)[0]` selects, expressed directly as
a deterministic function of the list order. -/
def firstMaxBT : List Package → Option Package
  | [] => none
  | x :: xs =>
    match firstMaxBT xs with
    | none => some x
    | some y => some (if y.buildtime ≤ x.buildtime then x else y)

theorem head?_insertByBuildtimeDesc (x : Package) (s : List Package) :
    (insertByBuildtimeDesc x s).head? =
      some (match s.head? with
            | none => x
            | some y => if y.buildtime ≤ x.buildtime then x else y) := by
  cases s with
  | nil => rfl
  | cons y ys =>
    show (if y.buildtime ≤ x.buildtime then x :: y :: ys
          else y :: insertByBuildtimeDesc x ys).head? = _
    by_cases h : y.buildtime ≤ x.buildtime
    · rw [if_pos h]
      simp [h]
    · rw [if_neg h]
      simp [h]

theorem firstMaxBT_nil : firstMaxBT [] = none := rfl

theorem firstMaxBT_cons (x : Package) (xs : List Package) :
    firstMaxBT (x :: xs) =
      match firstMaxBT xs with
      | none => some x
      | some y => some (if y.buildtime ≤ x.buildtime then x else y) := rfl

theorem head?_sortByBuildtimeDesc : ∀ l, (sortByBuildtimeDesc l).head? = firstMaxBT l := by
  intro l
  induction l with
  | nil => rfl
  | cons x xs ih =>
    show (insertByBuildtimeDesc x (sortByBuildtimeDesc xs)).head? = _
    rw [head?_insertByBuildtimeDesc, ih, firstMaxBT_cons]
    cases firstMaxBT xs <;> rfl

theorem firstMaxBT_isSome (x : Package) (xs : List Package) :
    ∃ p, firstMaxBT (x :: xs) = some p := by
  rw [firstMaxBT_cons]
  cases firstMaxBT xs with
  | none => exact ⟨x, rfl⟩
  | some y => exact ⟨if y.buildtime ≤ x.buildtime then x else y, rfl⟩

theorem firstMaxBT_mem : ∀ (l : List Package) (p : Package), firstMaxBT l = some p → p ∈ l := by
  intro l
  induction l with
  | nil => intro p h; cases h
  | cons x xs ih =>
    intro p h
    rw [firstMaxBT_cons] at h
    cases hr : firstMaxBT xs with
    | none =>
      rw [hr] at h
      have hx := Option.some.inj h
      rw [← hx]
      exact List.mem_cons_self x xs
    | some y =>
      rw [hr] at h
      have hx := Option.some.inj h
      by_cases hb : y.buildtime ≤ x.buildtime
      · rw [if_pos hb] at hx
        rw [← hx]
        exact List.mem_cons_self x xs
      · rw [if_neg hb] at hx
        rw [← hx]
        exact List.mem_cons_of_mem x (ih y hr)

theorem firstMaxBT_max : ∀ (l : List Package) (p : Package), firstMaxBT l = some p →
    ∀ q ∈ l, q.buildtime ≤ p.buildtime := by
  intro l
  induction l with
  | nil => intro p h; cases h
  | cons x xs ih =>
    intro p h q hq
    rw [firstMaxBT_cons] at h
    cases hr : firstMaxBT xs with
    | none =>
      rw [hr] at h
      have hx := Option.some.inj h
      rcases List.mem_cons.mp hq with rfl | hqx
      · rw [← hx]
      · cases xs with
        | nil => cases hqx
        | cons z zs =>
          obtain ⟨w, hw⟩ := firstMaxBT_isSome z zs
          rw [hw] at hr
          cases hr
    | some y =>
      rw [hr] at h
      have hx := Option.some.inj h
      rcases List.mem_cons.mp hq with rfl | hqx
      · rw [← hx]
        by_cases hb : y.buildtime ≤ q.buildtime
        · rw [if_pos hb]
        · rw [if_neg hb]
          exact Nat.le_of_lt (Nat.lt_of_not_le hb)
      · have hqy := ih y hr q hqx
        rw [← hx]
        by_cases hb : y.buildtime ≤ x.buildtime
        · rw [if_pos hb]
          exact Nat.le_trans hqy hb
        · rw [if_neg hb]
          exact hqy

theorem firstMaxBT_all_eq : ∀ (l : List Package) (p : Package), (∀ q ∈ l, q = p) →
    l ≠ [] → firstMaxBT l = some p := by
  intro l
  induction l with
  | nil => intro p _ h; exact absurd rfl h
  | cons x xs ih =>
    intro p hall _
    have hx : x = p := hall x (List.mem_cons_self x xs)
    rw [firstMaxBT_cons]
    cases xs with
    | nil =>
      rw [firstMaxBT_nil, hx]
    | cons z zs =>
      have hr := ih p (fun q hq => hall q (List.mem_cons_of_mem x hq)) (by simp)
      rw [hr, hx]
      simp

/-- The lookup `_findPackage` returns exactly the first maximal-buildtime
match in index order (stable descending sort, then head). -/
theorem findPackage_eq (idx : List Package) (n : String) :
    findPackage idx n =
      firstMaxBT (idx.filter (fun p => n == p.name || n == p.filename)) := by
  unfold findPackage
  rw [← head?_sortByBuildtimeDesc]
  cases sortByBuildtimeDesc (idx.filter (fun p => n == p.name || n == p.filename)) <;> rfl

theorem findPackage_mem {idx : List Package} {n : String} {p : Package}
    (h : findPackage idx n = some p) : p ∈ idx ∧ (n = p.name ∨ n = p.filename) := by
  rw [findPackage_eq] at h
  have hm := firstMaxBT_mem _ _ h
  have := List.mem_filter.mp hm
  refine ⟨this.1, ?_⟩
  have hb := this.2
  rw [Bool.or_eq_true] at hb
  rcases hb with h1 | h1
  · exact Or.inl (eq_of_beq h1)
  · exact Or.inr (eq_of_beq h1)

theorem findPackage_isSome {idx : List Package} {n : String} {p : Package}
    (hp : p ∈ idx) (hn : n = p.name ∨ n = p.filename) :
    ∃ q, findPackage idx n = some q := by
  rw [findPackage_eq]
  have hpf : p ∈ idx.filter (fun p => n == p.name || n == p.filename) := by
    rw [List.mem_filter]
    refine ⟨hp, ?_⟩
    rcases hn with h | h
    · simp [h]
    · simp [h]
  cases hfl : idx.filter (fun p => n == p.name || n == p.filename) with
  | nil => rw [hfl] at hpf; cases hpf
  | cons x xs => exact firstMaxBT_isSome x xs

theorem findPackage_max {idx : List Package} {n : String} {p : Package}
    (h : findPackage idx n = some p) :
    ∀ q ∈ idx.filter (fun p => n == p.name || n == p.filename),
      q.buildtime ≤ p.buildtime := by
  rw [findPackage_eq] at h
  exact firstMaxBT_max _ _ h

/-- Unfolding equations of the download loop. -/
theorem drainQueue_nil (idx : List Package) (wd : Bool) (seen acc : List String) :
    drainQueue idx wd [] seen acc = (acc, seen) := by
  simp [drainQueue]

theorem drainQueue_cons_none (idx : List Package) (wd : Bool) {n : String}
    (rest seen acc : List String) (h : findPackage idx n = none) :
    drainQueue idx wd (n :: rest) seen acc = drainQueue idx wd rest seen acc := by
  rw [drainQueue]
  simp [h]

theorem drainQueue_cons_deps (idx : List Package) (wd : Bool) {n : String} {p : Package}
    (rest seen acc : List String) (h : findPackage idx n = some p)
    (hc : (wd && !(checkPackageRequirements idx p seen).isEmpty) = true) :
    drainQueue idx wd (n :: rest) seen acc =
      drainQueue idx wd ((checkPackageRequirements idx p seen).reverse ++ rest)
        (seen ++ checkPackageRequirements idx p seen) (acc ++ [p.filename]) := by
  rw [drainQueue]
  simp only [h, hc, if_true]

theorem drainQueue_cons_nodeps (idx : List Package) (wd : Bool) {n : String} {p : Package}
    (rest seen acc : List String) (h : findPackage idx n = some p)
    (hc : (wd && !(checkPackageRequirements idx p seen).isEmpty) = false) :
    drainQueue idx wd (n :: rest) seen acc =
      drainQueue idx wd rest seen (acc ++ [p.filename]) := by
  rw [drainQueue]
  simp only [h, hc, Bool.false_eq_true, if_false]

theorem mem_foldl_pyUnion (g : String → List String) :
    ∀ (l acc : List String) (n : String),
      n ∈ l.foldl (fun a t => pyUnion a (g t)) acc ↔ n ∈ acc ∨ ∃ t ∈ l, n ∈ g t := by
  intro l
  induction l with
  | nil => intro acc n; simp
  | cons x xs ih =>
    intro acc n
    show n ∈ xs.foldl (fun a t => pyUnion a (g t)) (pyUnion acc (g x)) ↔ _
    rw [ih, mem_pyUnion]
    constructor
    · rintro ((h | h) | ⟨t, ht, hn⟩)
      · exact Or.inl h
      · exact Or.inr ⟨x, List.mem_cons_self x xs, h⟩
      · exact Or.inr ⟨t, List.mem_cons_of_mem x ht, hn⟩
    · rintro (h | ⟨t, ht, hn⟩)
      · exact Or.inl (Or.inl h)
      · rcases List.mem_cons.mp ht with rfl | ht2
        · exact Or.inl (Or.inr hn)
        · exact Or.inr ⟨t, ht2, hn⟩

theorem nodup_foldl_pyUnion (g : String → List String) (l acc : List String)
    (hacc : acc.Nodup) : (l.foldl (fun a t => pyUnion a (g t)) acc).Nodup :=
  foldl_invariant (fun a t => pyUnion a (g t)) (fun a => a.Nodup)
    (fun a t ha => nodup_pyUnion (g t) a ha) l acc hacc

theorem expandTokens_nodup (idx : List Package) (tokens : List String) :
    (expandTokens idx tokens).Nodup := by
  unfold expandTokens
  exact nodup_foldl_pyUnion _ _ _ (nodup_pyDedup _)

theorem mem_tokenMatches {idx : List Package} {t n : String} :
    n ∈ tokenMatches idx t ↔
      ∃ p ∈ idx, fnmatchcase (stripMingw p.name) t = true ∧ n = p.name := by
  unfold tokenMatches
  rw [mem_pyDedup, List.mem_map]
  constructor
  · rintro ⟨p, hp, rfl⟩
    have := List.mem_filter.mp hp
    exact ⟨p, this.1, this.2, rfl⟩
  · rintro ⟨p, hp, hm, rfl⟩
    exact ⟨p, List.mem_filter.mpr ⟨hp, hm⟩, rfl⟩

theorem tokenMatches_isEmpty {idx : List Package} {t : String} :
    (tokenMatches idx t).isEmpty = true ↔
      ∀ p ∈ idx, fnmatchcase (stripMingw p.name) t = false := by
  rw [List.isEmpty_iff]
  constructor
  · intro h p hp
    by_contra hc
    have hmem : p.name ∈ tokenMatches idx t :=
      mem_tokenMatches.mpr ⟨p, hp, eq_true_of_ne_false hc, rfl⟩
    rw [h] at hmem
    cases hmem
  · intro h
    rw [List.eq_nil_iff_forall_not_mem]
    intro n hn
    obtain ⟨p, hp, hm, _⟩ := mem_tokenMatches.mp hn
    rw [h p hp] at hm
    cases hm

theorem mem_tokenContribution {idx : List Package} {t n : String} :
    n ∈ (if (tokenMatches idx t).isEmpty then [t] else tokenMatches idx t) ↔
      ((∃ p ∈ idx, fnmatchcase (stripMingw p.name) t = true ∧ n = p.name) ∨
       ((∀ p ∈ idx, fnmatchcase (stripMingw p.name) t = false) ∧ n = t)) := by
  by_cases he : (tokenMatches idx t).isEmpty = true
  · rw [if_pos he]
    have hall := tokenMatches_isEmpty.mp he
    constructor
    · intro hn
      exact Or.inr ⟨hall, by simpa using hn⟩
    · rintro (⟨p, hp, hm, _⟩ | ⟨_, rfl⟩)
      · rw [hall p hp] at hm
        cases hm
      · exact List.mem_singleton.mpr rfl
  · rw [if_neg he]
    rw [mem_tokenMatches]
    constructor
    · exact fun h => Or.inl h
    · rintro (h | ⟨hall, rfl⟩)
      · exact h
      · exact absurd (tokenMatches_isEmpty.mpr hall) he

/-- Membership characterization of the token-expansion stage: a name is
queued exactly when it is a literal .rpm token, a package name whose
`replace`-normalized form glob-matches some non-.rpm token, or a
non-.rpm token that matched nothing (literal fallback). -/
theorem mem_expandTokens {idx : List Package} {tokens : List String} {n : String} :
    n ∈ expandTokens idx tokens ↔
      (∃ t ∈ tokens, pyEndsWith t ".rpm" = true ∧ n = t) ∨
      (∃ t ∈ tokens, pyEndsWith t ".rpm" = false ∧
        ((∃ p ∈ idx, fnmatchcase (stripMingw p.name) t = true ∧ n = p.name) ∨
         ((∀ p ∈ idx, fnmatchcase (stripMingw p.name) t = false) ∧ n = t))) := by
  unfold expandTokens
  rw [mem_foldl_pyUnion (fun t => if (tokenMatches idx t).isEmpty then [t] else tokenMatches idx t)]
  rw [mem_pyDedup, List.mem_filter]
  constructor
  · rintro (⟨hn, hrpm⟩ | ⟨t, ht, hc⟩)
    · exact Or.inl ⟨n, hn, hrpm, rfl⟩
    · have := List.mem_filter.mp (mem_pyDedup.mp ht)
      refine Or.inr ⟨t, this.1, by simpa using this.2, ?_⟩
      exact mem_tokenContribution.mp hc
  · rintro (⟨t, ht, hrpm, rfl⟩ | ⟨t, ht, hrpm, hc⟩)
    · exact Or.inl ⟨ht, hrpm⟩
    · refine Or.inr ⟨t, ?_, ?_⟩
      · rw [mem_pyDedup, List.mem_filter]
        exact ⟨ht, by simp [hrpm]⟩
      · exact mem_tokenContribution.mpr hc

theorem ne_of_pyEndsWith {a b suffix : String} (ha : pyEndsWith a suffix = true)
    (hb : pyEndsWith b suffix = false) : a ≠ b := by
  rintro rfl
  rw [ha] at hb
  cases hb

theorem checkStepWith_mem_mono (arrange : List String → List String) (idx : List Package)
    (seen acc : List String) (r x : String) (hx : x ∈ acc) :
    x ∈ checkStepWith arrange idx seen acc r := by
  unfold checkStepWith
  dsimp only
  by_cases hany : (providersOfNames idx r).any (fun q => seen.contains q) = true
  · rw [if_pos hany]
    exact hx
  · rw [if_neg hany]
    cases arrange (providersOfNames idx r) with
    | nil => exact hx
    | cons q qs =>
      dsimp only
      by_cases hq : q ∈ acc
      · rw [if_pos hq]
        exact hx
      · rw [if_neg hq]
        exact List.mem_append_left _ hx

theorem checkFold_mem_mono (arrange : List String → List String) (idx : List Package)
    (seen : List String) (reqs : List String) (acc : List String) (x : String) (hx : x ∈ acc) :
    x ∈ reqs.foldl (checkStepWith arrange idx seen) acc :=
  foldl_invariant (checkStepWith arrange idx seen) (fun a => x ∈ a)
    (fun a r h => checkStepWith_mem_mono arrange idx seen a r x h) reqs acc hx

theorem checkStepWith_mem_cases (idx : List Package) (seen acc : List String) (r d : String)
    (hd : d ∈ checkStepWith id idx seen acc r) :
    d ∈ acc ∨ d ∈ providersOfNames idx r := by
  unfold checkStepWith at hd
  dsimp only [id] at hd
  by_cases hany : (providersOfNames idx r).any (fun q => seen.contains q) = true
  · rw [if_pos hany] at hd
    exact Or.inl hd
  · rw [if_neg hany] at hd
    cases hp : providersOfNames idx r with
    | nil =>
      rw [hp] at hd
      exact Or.inl hd
    | cons q qs =>
      rw [hp] at hd
      dsimp only at hd
      by_cases hq : q ∈ acc
      · rw [if_pos hq] at hd
        exact Or.inl hd
      · rw [if_neg hq] at hd
        rcases List.mem_append.mp hd with h | h
        · exact Or.inl h
        · rw [List.mem_singleton] at h
          subst h
          exact Or.inr (List.mem_cons_self d qs)

/-- Every dependency name collected by the requirement check is a
provider of one of the package's requirements. -/
theorem checkPackageRequirements_sources (idx : List Package) (package : Package)
    (seen : List String) :
    ∀ d ∈ checkPackageRequirements idx package seen,
      ∃ rq ∈ package.requires, d ∈ providersOfNames idx rq := by
  unfold checkPackageRequirements checkRequirementsWith
  suffices h : ∀ (reqs acc : List String) (d : String),
      d ∈ reqs.foldl (checkStepWith id idx seen) acc →
      d ∈ acc ∨ ∃ rq ∈ reqs, d ∈ providersOfNames idx rq by
    intro d hd
    rcases h package.requires [] d hd with hc | hc
    · cases hc
    · exact hc
  intro reqs
  induction reqs with
  | nil =>
    intro acc d hd
    exact Or.inl hd
  | cons r rs ih =>
    intro acc d hd
    rcases ih (checkStepWith id idx seen acc r) d hd with hc | ⟨rq, hrq, hdp⟩
    · rcases checkStepWith_mem_cases idx seen acc r d hc with h | h
      · exact Or.inl h
      · exact Or.inr ⟨r, List.mem_cons_self r rs, h⟩
    · exact Or.inr ⟨rq, List.mem_cons_of_mem r hrq, hdp⟩

/-- Requirement coverage: after the check, every requirement with a
non-empty provider set has some provider that is either already seen or
among the returned dependency names. -/
theorem checkPackageRequirements_covers (idx : List Package) (package : Package)
    (seen : List String) :
    ∀ rq ∈ package.requires, providersOfNames idx rq ≠ [] →
      ∃ q ∈ providersOfNames idx rq,
        q ∈ seen ∨ q ∈ checkPackageRequirements idx package seen := by
  unfold checkPackageRequirements checkRequirementsWith
  suffices h : ∀ (reqs acc : List String) (rq : String), rq ∈ reqs →
      providersOfNames idx rq ≠ [] →
      ∃ q ∈ providersOfNames idx rq,
        q ∈ seen ∨ q ∈ reqs.foldl (checkStepWith id idx seen) acc from
    fun rq hrq hne => h package.requires [] rq hrq hne
  intro reqs
  induction reqs with
  | nil =>
    intro acc rq hrq
    cases hrq
  | cons r rs ih =>
    intro acc rq hrq hne
    rcases List.mem_cons.mp hrq with rfl | hrq2
    · by_cases hany : (providersOfNames idx rq).any (fun q => seen.contains q) = true
      · obtain ⟨q, hqp, hqs⟩ := List.any_eq_true.mp hany
        exact ⟨q, hqp, Or.inl (List.mem_of_elem_eq_true hqs)⟩
      · cases hp : providersOfNames idx rq with
        | nil => exact absurd hp hne
        | cons qh qt =>
          refine ⟨qh, List.mem_cons_self qh qt, Or.inr ?_⟩
          show qh ∈ List.foldl (checkStepWith id idx seen) (checkStepWith id idx seen acc rq) rs
          apply checkFold_mem_mono
          unfold checkStepWith
          dsimp only [id]
          rw [if_neg hany, hp]
          dsimp only
          by_cases hq : qh ∈ acc
          · rw [if_pos hq]
            exact hq
          · rw [if_neg hq]
            exact List.mem_append_right _ (List.mem_singleton.mpr rfl)
    · rcases ih (checkStepWith id idx seen acc r) rq hrq2 hne with ⟨q, hqp, hqc⟩
      exact ⟨q, hqp, hqc⟩

/-- The seen set only grows over the download loop. -/
theorem drain_seen_mono (idx : List Package) (wd : Bool) :
    ∀ (queue seen acc : List String), ∀ x ∈ seen, x ∈ (drainQueue idx wd queue seen acc).2 := by
  intro queue seen acc
  induction queue, seen, acc using drainQueue.induct idx wd with
  | case1 seen acc =>
    intro x hx
    rw [drainQueue_nil]
    exact hx
  | case2 n rest seen acc hfp ih =>
    intro x hx
    rw [drainQueue_cons_none idx wd rest seen acc hfp]
    exact ih x hx
  | case3 n rest seen acc p hfp deps hc ih =>
    intro x hx
    rw [drainQueue_cons_deps idx wd rest seen acc hfp hc]
    exact ih x (List.mem_append_left _ hx)
  | case4 n rest seen acc p hfp deps hc ih =>
    intro x hx
    rw [drainQueue_cons_nodeps idx wd rest seen acc hfp (by simpa using hc)]
    exact ih x hx

/-- Collected filenames persist over the download loop. -/
theorem drain_acc_mono (idx : List Package) (wd : Bool) :
    ∀ (queue seen acc : List String), ∀ f ∈ acc, f ∈ (drainQueue idx wd queue seen acc).1 := by
  intro queue seen acc
  induction queue, seen, acc using drainQueue.induct idx wd with
  | case1 seen acc =>
    intro f hf
    rw [drainQueue_nil]
    exact hf
  | case2 n rest seen acc hfp ih =>
    intro f hf
    rw [drainQueue_cons_none idx wd rest seen acc hfp]
    exact ih f hf
  | case3 n rest seen acc p hfp deps hc ih =>
    intro f hf
    rw [drainQueue_cons_deps idx wd rest seen acc hfp hc]
    exact ih f (List.mem_append_left _ hf)
  | case4 n rest seen acc p hfp deps hc ih =>
    intro f hf
    rw [drainQueue_cons_nodeps idx wd rest seen acc hfp (by simpa using hc)]
    exact ih f (List.mem_append_left _ hf)

/-- Provenance of collected filenames: each one is the filename of the
package found for some name in the final seen set. -/
theorem drain_provenance (idx : List Package) (wd : Bool) :
    ∀ (queue seen acc : List String),
      (∀ n ∈ queue, n ∈ seen) →
      ∀ f ∈ (drainQueue idx wd queue seen acc).1,
        f ∈ acc ∨ ∃ n ∈ (drainQueue idx wd queue seen acc).2,
          ∃ p, findPackage idx n = some p ∧ p.filename = f := by
  intro queue seen acc
  induction queue, seen, acc using drainQueue.induct idx wd with
  | case1 seen acc =>
    intro _ f hf
    rw [drainQueue_nil] at hf ⊢
    exact Or.inl hf
  | case2 n rest seen acc hfp ih =>
    intro hqs f hf
    rw [drainQueue_cons_none idx wd rest seen acc hfp] at hf ⊢
    exact ih (fun m hm => hqs m (List.mem_cons_of_mem n hm)) f hf
  | case3 n rest seen acc p hfp deps hc ih =>
    intro hqs f hf
    rw [drainQueue_cons_deps idx wd rest seen acc hfp hc] at hf ⊢
    have hspec := checkPackageRequirements_spec idx p seen
    have hqs2 : ∀ m ∈ (checkPackageRequirements idx p seen).reverse ++ rest,
        m ∈ seen ++ checkPackageRequirements idx p seen := by
      intro m hm
      rcases List.mem_append.mp hm with hm1 | hm1
      · exact List.mem_append_right _ (List.mem_reverse.mp hm1)
      · exact List.mem_append_left _ (hqs m (List.mem_cons_of_mem n hm1))
    rcases ih hqs2 f hf with hacc | hrest
    · rcases List.mem_append.mp hacc with h1 | h1
      · exact Or.inl h1
      · rw [List.mem_singleton] at h1
        subst h1
        refine Or.inr ⟨n, ?_, p, hfp, rfl⟩
        exact drain_seen_mono idx wd _ _ _ n
          (List.mem_append_left _ (hqs n (List.mem_cons_self n rest)))
    · exact Or.inr hrest
  | case4 n rest seen acc p hfp deps hc ih =>
    intro hqs f hf
    rw [drainQueue_cons_nodeps idx wd rest seen acc hfp (by simpa using hc)] at hf ⊢
    rcases ih (fun m hm => hqs m (List.mem_cons_of_mem n hm)) f hf with hacc | hrest
    · rcases List.mem_append.mp hacc with h1 | h1
      · exact Or.inl h1
      · rw [List.mem_singleton] at h1
        subst h1
        refine Or.inr ⟨n, ?_, p, hfp, rfl⟩
        exact drain_seen_mono idx wd _ _ _ n (hqs n (List.mem_cons_self n rest))
    · exact Or.inr hrest

/-- Without dependency resolution the loop only ever processes the
initial queue: every collected filename comes from a queued name. -/
theorem drain_provenance_noDeps (idx : List Package) :
    ∀ (queue seen acc : List String),
      ∀ f ∈ (drainQueue idx false queue seen acc).1,
        f ∈ acc ∨ ∃ n ∈ queue, ∃ p, findPackage idx n = some p ∧ p.filename = f := by
  intro queue seen acc
  induction queue, seen, acc using drainQueue.induct idx false with
  | case1 seen acc =>
    intro f hf
    rw [drainQueue_nil] at hf
    exact Or.inl hf
  | case2 n rest seen acc hfp ih =>
    intro f hf
    rw [drainQueue_cons_none idx false rest seen acc hfp] at hf
    rcases ih f hf with h | ⟨m, hm, hp⟩
    · exact Or.inl h
    · exact Or.inr ⟨m, List.mem_cons_of_mem n hm, hp⟩
  | case3 n rest seen acc p hfp deps hc ih =>
    exact absurd hc (by simp)
  | case4 n rest seen acc p hfp deps hc ih =>
    intro f hf
    rw [drainQueue_cons_nodeps idx false rest seen acc hfp (by simp)] at hf
    rcases ih f hf with h | ⟨m, hm, hp⟩
    · rcases List.mem_append.mp h with h1 | h1
      · exact Or.inl h1
      · rw [List.mem_singleton] at h1
        subst h1
        exact Or.inr ⟨n, List.mem_cons_self n rest, p, hfp, rfl⟩
    · exact Or.inr ⟨m, List.mem_cons_of_mem n hm, hp⟩

/-- Master invariant of the dependency-resolving loop: every name in
the final seen set gets processed, so when its lookup succeeds, its
package filename is collected; and (with dependencies on) every
requirement of such a package that has providers ends with a provider
in the final seen set. -/
theorem drain_main (idx : List Package) (wd : Bool) :
    ∀ (queue seen acc : List String),
      queue.Nodup →
      (∀ n ∈ queue, n ∈ seen) →
      (∀ n ∈ seen, n ∉ queue → ∀ p, findPackage idx n = some p → p.filename ∈ acc) →
      (wd = true → ∀ n ∈ seen, n ∉ queue → ∀ p, findPackage idx n = some p →
        ∀ rq ∈ p.requires, providersOfNames idx rq ≠ [] →
          ∃ q ∈ providersOfNames idx rq, q ∈ seen) →
      (∀ n ∈ (drainQueue idx wd queue seen acc).2, ∀ p, findPackage idx n = some p →
          p.filename ∈ (drainQueue idx wd queue seen acc).1) ∧
      (wd = true → ∀ n ∈ (drainQueue idx wd queue seen acc).2, ∀ p,
          findPackage idx n = some p →
          ∀ rq ∈ p.requires, providersOfNames idx rq ≠ [] →
            ∃ q ∈ providersOfNames idx rq, q ∈ (drainQueue idx wd queue seen acc).2) := by
  intro queue seen acc
  induction queue, seen, acc using drainQueue.induct idx wd with
  | case1 seen acc =>
    intro _ _ hdone hdoneR
    rw [drainQueue_nil]
    constructor
    · intro n hn p hp
      exact hdone n hn (by simp) p hp
    · intro hwd n hn p hp rq hrq hne
      exact hdoneR hwd n hn (by simp) p hp rq hrq hne
  | case2 n rest seen acc hfp ih =>
    intro hnd hqs hdone hdoneR
    rw [drainQueue_cons_none idx wd rest seen acc hfp]
    apply ih ((List.nodup_cons.mp hnd).2) (fun m hm => hqs m (List.mem_cons_of_mem n hm))
    · intro n1 hn1 hnq1 p1 hp1
      by_cases hne : n1 = n
      · subst hne
        rw [hfp] at hp1
        cases hp1
      · refine hdone n1 hn1 ?_ p1 hp1
        intro hcon
        rcases List.mem_cons.mp hcon with h | h
        · exact hne h
        · exact hnq1 h
    · intro hwd n1 hn1 hnq1 p1 hp1 rq hrq hne2
      by_cases hne : n1 = n
      · subst hne
        rw [hfp] at hp1
        cases hp1
      · refine hdoneR hwd n1 hn1 ?_ p1 hp1 rq hrq hne2
        intro hcon
        rcases List.mem_cons.mp hcon with h | h
        · exact hne h
        · exact hnq1 h
  | case3 n rest seen acc p hfp deps hc ih =>
    intro hnd hqs hdone hdoneR
    rw [drainQueue_cons_deps idx wd rest seen acc hfp hc]
    have hspec := checkPackageRequirements_spec idx p seen
    have hfreshness : ∀ d ∈ checkPackageRequirements idx p seen, d ∉ seen :=
      fun d hd => (hspec.2 d hd).1
    have hndrest : rest.Nodup := (List.nodup_cons.mp hnd).2
    have hninrest : n ∉ rest := (List.nodup_cons.mp hnd).1
    have hnseen : n ∈ seen := hqs n (List.mem_cons_self n rest)
    apply ih
    · rw [List.nodup_append]
      refine ⟨List.nodup_reverse.mpr hspec.1, hndrest, ?_⟩
      intro x hx1 hx2
      exact hfreshness x (List.mem_reverse.mp hx1) (hqs x (List.mem_cons_of_mem n hx2))
    · intro m hm
      rcases List.mem_append.mp hm with h | h
      · exact List.mem_append_right _ (List.mem_reverse.mp h)
      · exact List.mem_append_left _ (hqs m (List.mem_cons_of_mem n h))
    · intro n1 hn1 hnq1 p1 hp1
      have hn1seen : n1 ∈ seen := by
        rcases List.mem_append.mp hn1 with h | h
        · exact h
        · exact absurd (List.mem_append_left _ (List.mem_reverse.mpr h)) hnq1
      by_cases hne : n1 = n
      · subst hne
        rw [hfp] at hp1
        have hpp := Option.some.inj hp1
        rw [← hpp]
        exact List.mem_append_right _ (List.mem_singleton.mpr rfl)
      · refine List.mem_append_left _ (hdone n1 hn1seen ?_ p1 hp1)
        intro hcon
        rcases List.mem_cons.mp hcon with h | h
        · exact hne h
        · exact hnq1 (List.mem_append_right _ h)
    · intro hwd n1 hn1 hnq1 p1 hp1 rq hrq hne2
      have hn1seen : n1 ∈ seen := by
        rcases List.mem_append.mp hn1 with h | h
        · exact h
        · exact absurd (List.mem_append_left _ (List.mem_reverse.mpr h)) hnq1
      by_cases hne : n1 = n
      · subst hne
        rw [hfp] at hp1
        have hpp := Option.some.inj hp1
        rw [← hpp] at hrq
        obtain ⟨q, hqp, hq⟩ := checkPackageRequirements_covers idx p seen rq hrq hne2
        rcases hq with h | h
        · exact ⟨q, hqp, List.mem_append_left _ h⟩
        · exact ⟨q, hqp, List.mem_append_right _ h⟩
      · have hside : n1 ∉ n :: rest := by
          intro hcon
          rcases List.mem_cons.mp hcon with h | h
          · exact hne h
          · exact hnq1 (List.mem_append_right _ h)
        obtain ⟨q, hqp, hq⟩ := hdoneR hwd n1 hn1seen hside p1 hp1 rq hrq hne2
        exact ⟨q, hqp, List.mem_append_left _ hq⟩
  | case4 n rest seen acc p hfp deps hc ih =>
    intro hnd hqs hdone hdoneR
    rw [drainQueue_cons_nodeps idx wd rest seen acc hfp (by simpa using hc)]
    have hndrest : rest.Nodup := (List.nodup_cons.mp hnd).2
    apply ih hndrest (fun m hm => hqs m (List.mem_cons_of_mem n hm))
    · intro n1 hn1 hnq1 p1 hp1
      by_cases hne : n1 = n
      · subst hne
        rw [hfp] at hp1
        have hpp := Option.some.inj hp1
        rw [← hpp]
        exact List.mem_append_right _ (List.mem_singleton.mpr rfl)
      · refine List.mem_append_left _ (hdone n1 hn1 ?_ p1 hp1)
        intro hcon
        rcases List.mem_cons.mp hcon with h | h
        · exact hne h
        · exact hnq1 h
    · intro hwd n1 hn1 hnq1 p1 hp1 rq hrq hne2
      have hdeps : checkPackageRequirements idx p seen = [] := by
        cases hb : (checkPackageRequirements idx p seen).isEmpty with
        | true => exact List.isEmpty_iff.mp hb
        | false =>
          exfalso
          apply hc
          show (wd && !(checkPackageRequirements idx p seen).isEmpty) = true
          rw [hwd, hb]
          rfl
      by_cases hne : n1 = n
      · subst hne
        rw [hfp] at hp1
        have hpp := Option.some.inj hp1
        rw [← hpp] at hrq
        obtain ⟨q, hqp, hq⟩ := checkPackageRequirements_covers idx p seen rq hrq hne2
        rcases hq with h | h
        · exact ⟨q, hqp, h⟩
        · rw [hdeps] at h
          cases h
      · refine hdoneR hwd n1 hn1 ?_ p1 hp1 rq hrq hne2
        intro hcon
        rcases List.mem_cons.mp hcon with h | h
        · exact hne h
        · exact hnq1 h

/-- Upper bound on the loop result: when every queued name resolves
into the predicate and dependency names preserve it, every collected
filename satisfies it. -/
theorem drain_bound (idx : List Package) (wd : Bool) (SP : String → Prop)
    (Hdep : ∀ (p : Package) (seen1 : List String), (∃ n1, findPackage idx n1 = some p) →
      SP p.filename → ∀ d ∈ checkPackageRequirements idx p seen1,
        ∀ pd, findPackage idx d = some pd → SP pd.filename) :
    ∀ (queue seen acc : List String),
      (∀ n ∈ queue, ∀ p, findPackage idx n = some p → SP p.filename) →
      (∀ f ∈ acc, SP f) →
      ∀ f ∈ (drainQueue idx wd queue seen acc).1, SP f := by
  intro queue seen acc
  induction queue, seen, acc using drainQueue.induct idx wd with
  | case1 seen acc =>
    intro _ hacc f hf
    rw [drainQueue_nil] at hf
    exact hacc f hf
  | case2 n rest seen acc hfp ih =>
    intro hq hacc f hf
    rw [drainQueue_cons_none idx wd rest seen acc hfp] at hf
    exact ih (fun m hm => hq m (List.mem_cons_of_mem n hm)) hacc f hf
  | case3 n rest seen acc p hfp deps hc ih =>
    intro hq hacc f hf
    rw [drainQueue_cons_deps idx wd rest seen acc hfp hc] at hf
    have hSPp : SP p.filename := hq n (List.mem_cons_self n rest) p hfp
    apply ih ?_ ?_ f hf
    · intro m hm pm hpm
      rcases List.mem_append.mp hm with h | h
      · exact Hdep p seen ⟨n, hfp⟩ hSPp m (List.mem_reverse.mp h) pm hpm
      · exact hq m (List.mem_cons_of_mem n h) pm hpm
    · intro g hg
      rcases List.mem_append.mp hg with h | h
      · exact hacc g h
      · rw [List.mem_singleton] at h
        subst h
        exact hSPp
  | case4 n rest seen acc p hfp deps hc ih =>
    intro hq hacc f hf
    rw [drainQueue_cons_nodeps idx wd rest seen acc hfp (by simpa using hc)] at hf
    have hSPp : SP p.filename := hq n (List.mem_cons_self n rest) p hfp
    apply ih (fun m hm => hq m (List.mem_cons_of_mem n hm)) ?_ f hf
    intro g hg
    rcases List.mem_append.mp hg with h | h
    · exact hacc g h
    · rw [List.mem_singleton] at h
      subst h
      exact hSPp

/-- Deduplication of the loop result: distinct queued names never
resolving to a shared filename makes the collected filename list
duplicate-free.  `L` over-approximates every name the loop can ever
process. -/
theorem drain_nodup (idx : List Package) (wd : Bool) (L : List String)
    (hL : ∀ x ∈ idx.map Package.name, x ∈ L)
    (Hinj : ∀ n1 ∈ L, ∀ n2 ∈ L, n1 ≠ n2 → ∀ p1 p2, findPackage idx n1 = some p1 →
      findPackage idx n2 = some p2 → p1.filename ≠ p2.filename) :
    ∀ (queue seen acc : List String),
      queue.Nodup → (∀ n ∈ queue, n ∈ seen) → (∀ n ∈ queue, n ∈ L) →
      acc.Nodup →
      (∀ f ∈ acc, ∃ n1, n1 ∈ L ∧ n1 ∈ seen ∧ n1 ∉ queue ∧
        ∃ p1, findPackage idx n1 = some p1 ∧ p1.filename = f) →
      (drainQueue idx wd queue seen acc).1.Nodup := by
  intro queue seen acc
  induction queue, seen, acc using drainQueue.induct idx wd with
  | case1 seen acc =>
    intro _ _ _ hand _
    rw [drainQueue_nil]
    exact hand
  | case2 n rest seen acc hfp ih =>
    intro hnd hqs hqL hand hprov
    rw [drainQueue_cons_none idx wd rest seen acc hfp]
    apply ih ((List.nodup_cons.mp hnd).2) (fun m hm => hqs m (List.mem_cons_of_mem n hm))
      (fun m hm => hqL m (List.mem_cons_of_mem n hm)) hand
    intro f hf
    obtain ⟨n1, hn1L, hn1s, hn1q, p1, hp1, hf1⟩ := hprov f hf
    exact ⟨n1, hn1L, hn1s, fun hcon => hn1q (List.mem_cons_of_mem n hcon), p1, hp1, hf1⟩
  | case3 n rest seen acc p hfp deps hc ih =>
    intro hnd hqs hqL hand hprov
    rw [drainQueue_cons_deps idx wd rest seen acc hfp hc]
    have hspec := checkPackageRequirements_spec idx p seen
    have hfreshness : ∀ d ∈ checkPackageRequirements idx p seen, d ∉ seen :=
      fun d hd => (hspec.2 d hd).1
    have hndrest : rest.Nodup := (List.nodup_cons.mp hnd).2
    have hninrest : n ∉ rest := (List.nodup_cons.mp hnd).1
    have hnL : n ∈ L := hqL n (List.mem_cons_self n rest)
    have hnseen : n ∈ seen := hqs n (List.mem_cons_self n rest)
    have hfn : p.filename ∉ acc := by
      intro hcon
      obtain ⟨n1, hn1L, hn1s, hn1q, p1, hp1, hf1⟩ := hprov p.filename hcon
      have hne : n1 ≠ n := fun h => hn1q (h ▸ List.mem_cons_self n rest)
      exact Hinj n1 hn1L n hnL hne p1 p hp1 hfp hf1
    apply ih
    · rw [List.nodup_append]
      refine ⟨List.nodup_reverse.mpr hspec.1, hndrest, ?_⟩
      intro x hx1 hx2
      exact hfreshness x (List.mem_reverse.mp hx1) (hqs x (List.mem_cons_of_mem n hx2))
    · intro m hm
      rcases List.mem_append.mp hm with h | h
      · exact List.mem_append_right _ (List.mem_reverse.mp h)
      · exact List.mem_append_left _ (hqs m (List.mem_cons_of_mem n h))
    · intro m hm
      rcases List.mem_append.mp hm with h | h
      · exact hL m (hspec.2 m (List.mem_reverse.mp h)).2
      · exact hqL m (List.mem_cons_of_mem n h)
    · rw [List.nodup_append]
      refine ⟨hand, List.nodup_singleton _, ?_⟩
      intro x hx hxp
      rw [List.mem_singleton] at hxp
      subst hxp
      exact hfn hx
    · intro f hf
      rcases List.mem_append.mp hf with h | h
      · obtain ⟨n1, hn1L, hn1s, hn1q, p1, hp1, hf1⟩ := hprov f h
        refine ⟨n1, hn1L, List.mem_append_left _ hn1s, ?_, p1, hp1, hf1⟩
        intro hcon
        rcases List.mem_append.mp hcon with h1 | h1
        · exact hfreshness n1 (List.mem_reverse.mp h1) hn1s
        · exact hn1q (List.mem_cons_of_mem n h1)
      · rw [List.mem_singleton] at h
        subst h
        refine ⟨n, hnL, List.mem_append_left _ hnseen, ?_, p, hfp, rfl⟩
        intro hcon
        rcases List.mem_append.mp hcon with h1 | h1
        · exact hfreshness n (List.mem_reverse.mp h1) hnseen
        · exact hninrest h1
  | case4 n rest seen acc p hfp deps hc ih =>
    intro hnd hqs hqL hand hprov
    rw [drainQueue_cons_nodeps idx wd rest seen acc hfp (by simpa using hc)]
    have hndrest : rest.Nodup := (List.nodup_cons.mp hnd).2
    have hninrest : n ∉ rest := (List.nodup_cons.mp hnd).1
    have hnL : n ∈ L := hqL n (List.mem_cons_self n rest)
    have hnseen : n ∈ seen := hqs n (List.mem_cons_self n rest)
    have hfn : p.filename ∉ acc := by
      intro hcon
      obtain ⟨n1, hn1L, hn1s, hn1q, p1, hp1, hf1⟩ := hprov p.filename hcon
      have hne : n1 ≠ n := fun h => hn1q (h ▸ List.mem_cons_self n rest)
      exact Hinj n1 hn1L n hnL hne p1 p hp1 hfp hf1
    apply ih hndrest (fun m hm => hqs m (List.mem_cons_of_mem n hm))
      (fun m hm => hqL m (List.mem_cons_of_mem n hm))
    · rw [List.nodup_append]
      refine ⟨hand, List.nodup_singleton _, ?_⟩
      intro x hx hxp
      rw [List.mem_singleton] at hxp
      subst hxp
      exact hfn hx
    · intro f hf
      rcases List.mem_append.mp hf with h | h
      · obtain ⟨n1, hn1L, hn1s, hn1q, p1, hp1, hf1⟩ := hprov f h
        exact ⟨n1, hn1L, hn1s, fun hcon => hn1q (List.mem_cons_of_mem n hcon), p1, hp1, hf1⟩
      · rw [List.mem_singleton] at h
        subst h
        exact ⟨n, hnL, hnseen, hninrest, p, hfp, rfl⟩

/-- When every token carries the .rpm suffix the expansion stage keeps
the token set unchanged (as a deduplicated list). -/
theorem expandTokens_all_rpm (idx : List Package) (tokens : List String)
    (h : ∀ t ∈ tokens, pyEndsWith t ".rpm" = true) :
    expandTokens idx tokens = pyDedup tokens := by
  unfold expandTokens
  have h1 : tokens.filter (fun t => pyEndsWith t ".rpm") = tokens :=
    List.filter_eq_self.mpr h
  have h2 : tokens.filter (fun t => !(pyEndsWith t ".rpm")) = [] := by
    rw [List.filter_eq_nil_iff]
    intro t ht
    rw [h t ht]
    simp
  rw [h1, h2]
  rfl

/-- With .rpm-suffixed filenames, suffix-free names and injective
filenames, looking up a package filename finds exactly that package. -/
theorem findPackage_of_filename (idx : List Package)
    (Hrpm : ∀ p ∈ idx, pyEndsWith p.filename ".rpm" = true ∧ pyEndsWith p.name ".rpm" = false)
    (Hinj : ∀ p ∈ idx, ∀ q ∈ idx, p.filename = q.filename → p = q)
    {p : Package} (hp : p ∈ idx) :
    findPackage idx p.filename = some p := by
  rw [findPackage_eq]
  apply firstMaxBT_all_eq
  · intro q hq
    have hmf := List.mem_filter.mp hq
    have hb := hmf.1
    have hcond := hmf.2
    rw [Bool.or_eq_true] at hcond
    rcases hcond with h1 | h1
    · exfalso
      have he : p.filename = q.name := eq_of_beq h1
      exact ne_of_pyEndsWith (Hrpm p hp).1 (Hrpm q hb).2 he
    · have he : p.filename = q.filename := eq_of_beq h1
      exact Hinj q hb p hp he.symm
  · have hpmem : p ∈ idx.filter (fun q => p.filename == q.name || p.filename == q.filename) := by
      rw [List.mem_filter]
      exact ⟨hp, by simp⟩
    exact List.ne_nil_of_mem hpmem

/-- Every requested name whose lookup succeeds contributes its package
filename to the result of packagesDownload. -/
theorem packagesDownload_covers (idx : List Package) (tokens : List String) (wd : Bool) :
    ∀ n ∈ expandTokens idx tokens, ∀ p, findPackage idx n = some p →
      p.filename ∈ packagesDownload idx tokens wd := by
  intro n hn p hp
  have hmain := drain_main idx wd (expandTokens idx tokens).reverse (expandTokens idx tokens) []
    (List.nodup_reverse.mpr (expandTokens_nodup idx tokens))
    (fun m hm => List.mem_reverse.mp hm)
    (fun m hm hq => absurd (List.mem_reverse.mpr hm) hq)
    (fun _ m hm hq => absurd (List.mem_reverse.mpr hm) hq)
  have hseen := drain_seen_mono idx wd (expandTokens idx tokens).reverse
    (expandTokens idx tokens) [] n hn
  exact hmain.1 n hseen p hp

/-- Sample index used by several witnesses: package A provides
capability a, package B requires it. -/
def specIdxAB : List Package :=
  [⟨"A", 5, "", "fa.rpm", ["a"], []⟩, ⟨"B", 7, "", "fb.rpm", ["b"], ["a"]⟩]

/-- Evaluation of the A/B sample without dependency resolution. -/
theorem specIdxAB_eval_noDeps : packagesDownload specIdxAB ["B"] false = ["fb.rpm"] := by
  have he : expandTokens specIdxAB ["B"] = ["B"] := by decide
  show (drainQueue specIdxAB false (expandTokens specIdxAB ["B"]).reverse
    (expandTokens specIdxAB ["B"]) []).1 = _
  rw [he]
  show (drainQueue specIdxAB false ["B"] ["B"] []).1 = _
  rw [@drainQueue_cons_nodeps specIdxAB false "B" ⟨"B", 7, "", "fb.rpm", ["b"], ["a"]⟩
    [] ["B"] [] (by decide) (by decide)]
  rw [drainQueue_nil]
  rfl

/-- C2: when a token matches two or more index entries, `_findPackage`
returns a match of maximal buildtime, and the selection is the explicit
function `firstMaxBT` of the index order (stable sort head), hence
deterministic for a given index ordering. -/
theorem c2_resolution_newest_wins (idx : List Package) (token : String)
    (hmulti : 2 ≤ (idx.filter (fun p => token == p.name || token == p.filename)).length) :
    ∃ p, findPackage idx token = some p ∧
      p ∈ idx.filter (fun p => token == p.name || token == p.filename) ∧
      (∀ q ∈ idx.filter (fun p => token == p.name || token == p.filename),
        q.buildtime ≤ p.buildtime) ∧
      findPackage idx token =
        firstMaxBT (idx.filter (fun p => token == p.name || token == p.filename)) := by
  cases hfl : idx.filter (fun p => token == p.name || token == p.filename) with
  | nil =>
    rw [hfl] at hmulti
    exact absurd hmulti (by simp)
  | cons x xs =>
    obtain ⟨p, hp⟩ := firstMaxBT_isSome x xs
    have heq := findPackage_eq idx token
    rw [hfl] at heq
    rw [hp] at heq
    refine ⟨p, heq, firstMaxBT_mem _ _ hp, firstMaxBT_max _ _ hp, ?_⟩
    rw [heq, hp]

/-- Sample index with three same-named packages for the C2 witness. -/
def sampleIdxC2 : List Package :=
  [⟨"x", 3, "", "x1.rpm", [], []⟩, ⟨"x", 9, "", "x2.rpm", [], []⟩, ⟨"x", 9, "", "x3.rpm", [], []⟩]

/-- Witness for C2 on a three-way name collision. -/
theorem c2_resolution_newest_wins_witness :
    2 ≤ (sampleIdxC2.filter (fun p => "x" == p.name || "x" == p.filename)).length ∧
    ∃ p, findPackage sampleIdxC2 "x" = some p ∧
      p ∈ sampleIdxC2.filter (fun p => "x" == p.name || "x" == p.filename) ∧
      (∀ q ∈ sampleIdxC2.filter (fun p => "x" == p.name || "x" == p.filename),
        q.buildtime ≤ p.buildtime) ∧
      findPackage sampleIdxC2 "x" =
        firstMaxBT (sampleIdxC2.filter (fun p => "x" == p.name || "x" == p.filename)) :=
  ⟨by decide, c2_resolution_newest_wins sampleIdxC2 "x" (by decide)⟩

/-- C3: without dependency resolution every returned filename belongs
to a package found for one of the directly expanded tokens (glob
expansion with literal fallback); nothing reached only through a
requires/provides edge is ever added. -/
theorem c3_no_deps_only_direct_matches (idx : List Package) (tokens : List String) :
    ∀ f ∈ packagesDownload idx tokens false,
      ∃ n ∈ expandTokens idx tokens, ∃ p, findPackage idx n = some p ∧ p.filename = f := by
  intro f hf
  have hf2 : f ∈ (drainQueue idx false (expandTokens idx tokens).reverse
      (expandTokens idx tokens) []).1 := hf
  rcases drain_provenance_noDeps idx (expandTokens idx tokens).reverse
      (expandTokens idx tokens) [] f hf2 with h | ⟨n, hn, p, hp, hfl⟩
  · cases h
  · exact ⟨n, List.mem_reverse.mp hn, p, hp, hfl⟩

/-- Witness for C3 on the A/B sample. -/
theorem c3_no_deps_only_direct_matches_witness :
    "fb.rpm" ∈ packagesDownload specIdxAB ["B"] false ∧
    ∃ n ∈ expandTokens specIdxAB ["B"],
      ∃ p, findPackage specIdxAB n = some p ∧ p.filename = "fb.rpm" :=
  ⟨by rw [specIdxAB_eval_noDeps]; decide,
   c3_no_deps_only_direct_matches specIdxAB ["B"] "fb.rpm"
     (by rw [specIdxAB_eval_noDeps]; decide)⟩

/-- Modelled from the spec: the normalization described in §4.2,
"stripping a `mingw32-`/`mingw64-` prefix if present" — strip one
leading prefix only, for comparison against the source's
`str.replace` normalization. -/
def stripLeadingMingw (s : String) : String :=
  if ("mingw32-".data).isPrefixOf s.data then String.mk (s.data.drop 8)
  else if ("mingw64-".data).isPrefixOf s.data then String.mk (s.data.drop 8)
  else s

/-- Counterexample for C6 as stated: the token `a-b` does not glob-match
the leading-prefix-stripped name of package `a-mingw32-b`, yet the code
matches that package, because `str.replace` deletes the infix
`mingw32-` occurrence as well. -/
theorem c6_counterexample :
    pyEndsWith "a-b" ".rpm" = false ∧
    "a-mingw32-b" ∈ expandTokens [⟨"a-mingw32-b", 0, "", "f.rpm", [], []⟩] ["a-b"] ∧
    fnmatchcase (stripLeadingMingw "a-mingw32-b") "a-b" = false ∧
    fnmatchcase (stripMingw "a-mingw32-b") "a-b" = true := by
  refine ⟨by decide, by decide, by decide, by decide⟩

/-- C6 (amended): matching deletes every occurrence of `mingw32-` and
`mingw64-` from the package name (not only a leading prefix) before the
case-sensitive glob match; .rpm tokens pass through literally, and a
token matching nothing falls back to itself. -/
theorem c6_glob_matching_amended (idx : List Package) (tokens : List String) (n : String) :
    n ∈ expandTokens idx tokens ↔
      (∃ t ∈ tokens, pyEndsWith t ".rpm" = true ∧ n = t) ∨
      (∃ t ∈ tokens, pyEndsWith t ".rpm" = false ∧
        ((∃ p ∈ idx, fnmatchcase (stripMingw p.name) t = true ∧ n = p.name) ∨
         ((∀ p ∈ idx, fnmatchcase (stripMingw p.name) t = false) ∧ n = t))) :=
  mem_expandTokens

theorem filter_eq_singleton_of_unique :
    ∀ (idx : List Package) (P : Package), P ∈ idx → idx.count P = 1 →
      (∀ q ∈ idx, q.filename = P.filename → q = P) →
      (∀ q ∈ idx, q.name = P.filename → q = P) →
      idx.filter (fun p => P.filename == p.name || P.filename == p.filename) = [P] := by
  intro idx P
  induction idx with
  | nil => intro hP _ _ _; cases hP
  | cons x xs ih =>
    intro hP hcount hfu hnu
    by_cases hx : x = P
    · subst hx
      have h0 : xs.count x = 0 := by
        rw [List.count_cons_self] at hcount
        omega
      have hxnotxs : x ∉ xs := List.count_eq_zero.mp h0
      have hxs : xs.filter (fun p => x.filename == p.name || x.filename == p.filename) = [] := by
        rw [List.filter_eq_nil_iff]
        intro q hq hpred
        rw [Bool.or_eq_true] at hpred
        have hqx : q = x := by
          rcases hpred with h1 | h1
          · exact hnu q (List.mem_cons_of_mem x hq) (eq_of_beq h1).symm
          · exact hfu q (List.mem_cons_of_mem x hq) (eq_of_beq h1).symm
        exact absurd (hqx ▸ hq) hxnotxs
      simp [List.filter_cons, hxs]
    · have hn1 : x.filename ≠ P.filename :=
        fun h => hx (hfu x (List.mem_cons_self x xs) h)
      have hn2 : x.name ≠ P.filename :=
        fun h => hx (hnu x (List.mem_cons_self x xs) h)
      have hpred : (P.filename == x.name || P.filename == x.filename) = false := by
        have b1 : (P.filename == x.name) = false := by
          rw [beq_eq_false_iff_ne]
          exact fun h => hn2 h.symm
        have b2 : (P.filename == x.filename) = false := by
          rw [beq_eq_false_iff_ne]
          exact fun h => hn1 h.symm
        rw [b1, b2]
        rfl
      have hPxs : P ∈ xs := by
        rcases List.mem_cons.mp hP with h | h
        · exact absurd h.symm hx
        · exact h
      have hcount2 : xs.count P = 1 := by
        rw [List.count_cons_of_ne (fun h => hx h.symm)] at hcount
        exact hcount
      rw [List.filter_cons, hpred]
      simp only [Bool.false_eq_true, if_false]
      exact ih hPxs hcount2 (fun q hq => hfu q (List.mem_cons_of_mem x hq))
        (fun q hq => hnu q (List.mem_cons_of_mem x hq))

/-- C7: when filenames are unique per artifact (and occurring once) and
no other package name equals `P.filename`, looking the filename up via
the name-or-filename query matches exactly `P` and returns it. -/
theorem c7_filename_lookup_exact (idx : List Package) (P : Package)
    (hP : P ∈ idx) (hcount : idx.count P = 1)
    (hfu : ∀ q ∈ idx, q.filename = P.filename → q = P)
    (hnu : ∀ q ∈ idx, q.name = P.filename → q = P) :
    idx.filter (fun p => P.filename == p.name || P.filename == p.filename) = [P] ∧
    findPackage idx P.filename = some P := by
  have hfl := filter_eq_singleton_of_unique idx P hP hcount hfu hnu
  refine ⟨hfl, ?_⟩
  rw [findPackage_eq, hfl]
  rfl

/-- Witness for C7 on the A/B sample. -/
theorem c7_filename_lookup_exact_witness :
    (⟨"A", 5, "", "fa.rpm", ["a"], []⟩ : Package) ∈ specIdxAB ∧
    specIdxAB.filter (fun p => "fa.rpm" == p.name || "fa.rpm" == p.filename) =
      [⟨"A", 5, "", "fa.rpm", ["a"], []⟩] ∧
    findPackage specIdxAB "fa.rpm" = some ⟨"A", 5, "", "fa.rpm", ["a"], []⟩ :=
  ⟨by decide,
   (c7_filename_lookup_exact specIdxAB ⟨"A", 5, "", "fa.rpm", ["a"], []⟩
     (by decide) (by decide) (by decide) (by decide)).1,
   (c7_filename_lookup_exact specIdxAB ⟨"A", 5, "", "fa.rpm", ["a"], []⟩
     (by decide) (by decide) (by decide) (by decide)).2⟩

/-- C9: a queued name whose lookup fails is skipped without affecting
anything else: the loop result on `n :: rest` equals the result on
`rest` with the same seen set and accumulator, and the loop is a total
function (no exception). -/
theorem c9_missing_name_skipped (idx : List Package) (wd : Bool) (n : String)
    (rest seen acc : List String) (h : findPackage idx n = none) :
    drainQueue idx wd (n :: rest) seen acc = drainQueue idx wd rest seen acc :=
  drainQueue_cons_none idx wd rest seen acc h

/-- Witness for C9 with a name found nowhere. -/
theorem c9_missing_name_skipped_witness :
    findPackage ([] : List Package) "ghost" = none ∧
    drainQueue ([] : List Package) false ["ghost"] ["ghost"] [] =
      drainQueue ([] : List Package) false [] ["ghost"] [] :=
  ⟨by decide, c9_missing_name_skipped [] false "ghost" [] ["ghost"] [] (by decide)⟩

/-- Sample index for C8: capability r has the two providers P and Q. -/
def sampleIdxPQ : List Package :=
  [⟨"P", 1, "", "P.rpm", ["r"], []⟩, ⟨"Q", 1, "", "Q.rpm", ["r"], []⟩,
   ⟨"B", 1, "", "B.rpm", [], ["r"]⟩]

/-- Sample package for C8: B requires capability r. -/
def samplePkgB : Package := ⟨"B", 1, "", "B.rpm", [], ["r"]⟩

/-- C8 evidence: the provider chosen by `providers.pop()` depends on
the iteration order of the freshly built provider set.  Under the
insertion-order arrangement the code picks P, under the reversed
arrangement (a permutation of the same set, as a different hash seed
can produce) it picks Q: the choice is not a function of the package,
index and seen set alone, contradicting determinism across runs. -/
theorem c8_provider_choice_order_dependent :
    checkRequirementsWith id sampleIdxPQ samplePkgB [] = ["P"] ∧
    checkRequirementsWith List.reverse sampleIdxPQ samplePkgB [] = ["Q"] ∧
    (List.reverse (providersOfNames sampleIdxPQ "r")).Perm (providersOfNames sampleIdxPQ "r") ∧
    (["P"] : List String) ≠ ["Q"] :=
  ⟨by decide, by decide, List.reverse_perm _, by decide⟩

/-- Token expansion only reads package names: indexes with equal name
sequences expand identically. -/
theorem tokenMatches_congr (idx1 idx2 : List Package)
    (h : idx1.map Package.name = idx2.map Package.name) (t : String) :
    tokenMatches idx1 t = tokenMatches idx2 t := by
  unfold tokenMatches
  have k1 : (idx1.filter (fun p => fnmatchcase (stripMingw p.name) t)).map Package.name =
      (idx1.map Package.name).filter (fun nm => fnmatchcase (stripMingw nm) t) := by
    rw [List.filter_map]
    rfl
  have k2 : (idx2.filter (fun p => fnmatchcase (stripMingw p.name) t)).map Package.name =
      (idx2.map Package.name).filter (fun nm => fnmatchcase (stripMingw nm) t) := by
    rw [List.filter_map]
    rfl
  rw [k1, k2, h]

theorem expandTokens_congr_names (idx1 idx2 : List Package)
    (h : idx1.map Package.name = idx2.map Package.name) (tokens : List String) :
    expandTokens idx1 tokens = expandTokens idx2 tokens := by
  have hfun : (fun (acc : List String) (t : String) =>
      pyUnion acc (if (tokenMatches idx1 t).isEmpty = true then [t] else tokenMatches idx1 t)) =
      (fun (acc : List String) (t : String) =>
      pyUnion acc (if (tokenMatches idx2 t).isEmpty = true then [t] else tokenMatches idx2 t)) := by
    funext acc t
    rw [tokenMatches_congr idx1 idx2 h t]
  show List.foldl
      (fun acc t =>
        pyUnion acc (if (tokenMatches idx1 t).isEmpty = true then [t] else tokenMatches idx1 t))
      (pyDedup (tokens.filter (fun t => pyEndsWith t ".rpm")))
      (pyDedup (tokens.filter (fun t => !(pyEndsWith t ".rpm")))) =
    List.foldl
      (fun acc t =>
        pyUnion acc (if (tokenMatches idx2 t).isEmpty = true then [t] else tokenMatches idx2 t))
      (pyDedup (tokens.filter (fun t => pyEndsWith t ".rpm")))
      (pyDedup (tokens.filter (fun t => !(pyEndsWith t ".rpm"))))
  rw [hfun]

/-- C1: for an index of exactly the packages A (provides a, no
requires) and B (provides b, requires a) with distinct names and
filenames, in either index order, requesting the token B with
dependency resolution yields exactly the filenames of B and A. -/
theorem c1_end_to_end_with_deps (tA tB : Nat) (uA uB fA fB : String)
    (_hfa1 : fA ≠ "A") (hfa2 : fA ≠ "B") (hfb1 : fB ≠ "A") (_hfb2 : fB ≠ "B")
    (_hfafb : fA ≠ fB) (idx : List Package)
    (hidx : idx = [⟨"A", tA, uA, fA, ["a"], []⟩, ⟨"B", tB, uB, fB, ["b"], ["a"]⟩] ∨
            idx = [⟨"B", tB, uB, fB, ["b"], ["a"]⟩, ⟨"A", tA, uA, fA, ["a"], []⟩]) :
    packagesDownload idx ["B"] true = [fB, fA] ∧
    ∀ f, f ∈ packagesDownload idx ["B"] true ↔ (f = fA ∨ f = fB) := by
  have hbfa : (("B" : String) == fA) = false := by
    rw [beq_eq_false_iff_ne]
    exact fun h => hfa2 h.symm
  have hafb : (("A" : String) == fB) = false := by
    rw [beq_eq_false_iff_ne]
    exact fun h => hfb1 h.symm
  have main : packagesDownload idx ["B"] true = [fB, fA] := by
    rcases hidx with rfl | rfl
    · have he : expandTokens
          [⟨"A", tA, uA, fA, ["a"], []⟩, ⟨"B", tB, uB, fB, ["b"], ["a"]⟩] ["B"] = ["B"] := by
        rw [expandTokens_congr_names
          [⟨"A", tA, uA, fA, ["a"], []⟩, ⟨"B", tB, uB, fB, ["b"], ["a"]⟩]
          [⟨"A", 0, "", "", [], []⟩, ⟨"B", 0, "", "", [], []⟩] rfl ["B"]]
        decide
      have hfB : findPackage
          [⟨"A", tA, uA, fA, ["a"], []⟩, ⟨"B", tB, uB, fB, ["b"], ["a"]⟩] "B" =
          some ⟨"B", tB, uB, fB, ["b"], ["a"]⟩ := by
        rw [findPackage_eq]
        have hfl : [(⟨"A", tA, uA, fA, ["a"], []⟩ : Package), ⟨"B", tB, uB, fB, ["b"], ["a"]⟩].filter
            (fun p => "B" == p.name || "B" == p.filename) =
            [⟨"B", tB, uB, fB, ["b"], ["a"]⟩] := by
          simp +decide [List.filter_cons, hbfa]
        rw [hfl]
        rfl
      have hfA : findPackage
          [⟨"A", tA, uA, fA, ["a"], []⟩, ⟨"B", tB, uB, fB, ["b"], ["a"]⟩] "A" =
          some ⟨"A", tA, uA, fA, ["a"], []⟩ := by
        rw [findPackage_eq]
        have hfl : [(⟨"A", tA, uA, fA, ["a"], []⟩ : Package), ⟨"B", tB, uB, fB, ["b"], ["a"]⟩].filter
            (fun p => "A" == p.name || "A" == p.filename) =
            [⟨"A", tA, uA, fA, ["a"], []⟩] := by
          simp +decide [List.filter_cons, hafb]
        rw [hfl]
        rfl
      have hdepB : checkPackageRequirements
          [⟨"A", tA, uA, fA, ["a"], []⟩, ⟨"B", tB, uB, fB, ["b"], ["a"]⟩]
          ⟨"B", tB, uB, fB, ["b"], ["a"]⟩ ["B"] = ["A"] := by
        unfold checkPackageRequirements checkRequirementsWith checkStepWith providersOfNames
        simp +decide [pyDedup, pyUnion]
      have hdepA : checkPackageRequirements
          [⟨"A", tA, uA, fA, ["a"], []⟩, ⟨"B", tB, uB, fB, ["b"], ["a"]⟩]
          ⟨"A", tA, uA, fA, ["a"], []⟩ ["B", "A"] = [] := rfl
      show (drainQueue _ true (expandTokens _ ["B"]).reverse (expandTokens _ ["B"]) []).1 = _
      rw [he]
      show (drainQueue _ true ["B"] ["B"] []).1 = _
      rw [drainQueue_cons_deps _ true _ _ _ hfB (by rw [hdepB]; decide), hdepB]
      show (drainQueue _ true ["A"] ["B", "A"] [fB]).1 = _
      rw [drainQueue_cons_nodeps _ true _ _ _ hfA (by rw [hdepA]; decide)]
      rw [drainQueue_nil]
      rfl
    · have he : expandTokens
          [⟨"B", tB, uB, fB, ["b"], ["a"]⟩, ⟨"A", tA, uA, fA, ["a"], []⟩] ["B"] = ["B"] := by
        rw [expandTokens_congr_names
          [⟨"B", tB, uB, fB, ["b"], ["a"]⟩, ⟨"A", tA, uA, fA, ["a"], []⟩]
          [⟨"B", 0, "", "", [], []⟩, ⟨"A", 0, "", "", [], []⟩] rfl ["B"]]
        decide
      have hfB : findPackage
          [⟨"B", tB, uB, fB, ["b"], ["a"]⟩, ⟨"A", tA, uA, fA, ["a"], []⟩] "B" =
          some ⟨"B", tB, uB, fB, ["b"], ["a"]⟩ := by
        rw [findPackage_eq]
        have hfl : [(⟨"B", tB, uB, fB, ["b"], ["a"]⟩ : Package), ⟨"A", tA, uA, fA, ["a"], []⟩].filter
            (fun p => "B" == p.name || "B" == p.filename) =
            [⟨"B", tB, uB, fB, ["b"], ["a"]⟩] := by
          simp +decide [List.filter_cons, hbfa]
        rw [hfl]
        rfl
      have hfA : findPackage
          [⟨"B", tB, uB, fB, ["b"], ["a"]⟩, ⟨"A", tA, uA, fA, ["a"], []⟩] "A" =
          some ⟨"A", tA, uA, fA, ["a"], []⟩ := by
        rw [findPackage_eq]
        have hfl : [(⟨"B", tB, uB, fB, ["b"], ["a"]⟩ : Package), ⟨"A", tA, uA, fA, ["a"], []⟩].filter
            (fun p => "A" == p.name || "A" == p.filename) =
            [⟨"A", tA, uA, fA, ["a"], []⟩] := by
          simp +decide [List.filter_cons, hafb]
        rw [hfl]
        rfl
      have hdepB : checkPackageRequirements
          [⟨"B", tB, uB, fB, ["b"], ["a"]⟩, ⟨"A", tA, uA, fA, ["a"], []⟩]
          ⟨"B", tB, uB, fB, ["b"], ["a"]⟩ ["B"] = ["A"] := by
        unfold checkPackageRequirements checkRequirementsWith checkStepWith providersOfNames
        simp +decide [pyDedup, pyUnion]
      have hdepA : checkPackageRequirements
          [⟨"B", tB, uB, fB, ["b"], ["a"]⟩, ⟨"A", tA, uA, fA, ["a"], []⟩]
          ⟨"A", tA, uA, fA, ["a"], []⟩ ["B", "A"] = [] := rfl
      show (drainQueue _ true (expandTokens _ ["B"]).reverse (expandTokens _ ["B"]) []).1 = _
      rw [he]
      show (drainQueue _ true ["B"] ["B"] []).1 = _
      rw [drainQueue_cons_deps _ true _ _ _ hfB (by rw [hdepB]; decide), hdepB]
      show (drainQueue _ true ["A"] ["B", "A"] [fB]).1 = _
      rw [drainQueue_cons_nodeps _ true _ _ _ hfA (by rw [hdepA]; decide)]
      rw [drainQueue_nil]
      rfl
  refine ⟨main, ?_⟩
  intro f
  rw [main]
  constructor
  · intro hf
    rcases List.mem_cons.mp hf with rfl | hf2
    · exact Or.inr rfl
    · rcases List.mem_cons.mp hf2 with rfl | hf3
      · exact Or.inl rfl
      · cases hf3
  · rintro (rfl | rfl)
    · exact List.mem_cons_of_mem _ (List.mem_cons_self _ _)
    · exact List.mem_cons_self _ _

/-- Witness for C1 on the A/B sample index. -/
theorem c1_end_to_end_with_deps_witness :
    ("fa.rpm" : String) ≠ "B" ∧ ("fb.rpm" : String) ≠ "A" ∧
    packagesDownload specIdxAB ["B"] true = ["fb.rpm", "fa.rpm"] :=
  ⟨by decide, by decide,
   (c1_end_to_end_with_deps 5 7 "" "" "fa.rpm" "fb.rpm" (by decide) (by decide) (by decide)
     (by decide) (by decide) specIdxAB (Or.inl rfl)).1⟩

/-- Single-package sample whose name and filename are both requested. -/
def sampleIdxFoo : List Package := [⟨"foo", 1, "", "foo.rpm", [], []⟩]

/-- Evaluation of the duplicate-filename run: requesting both the name
and the literal filename of the same package processes two distinct
queued names resolving to one package. -/
theorem sampleIdxFoo_eval :
    packagesDownload sampleIdxFoo ["foo", "foo.rpm"] false = ["foo.rpm", "foo.rpm"] := by
  have he : expandTokens sampleIdxFoo ["foo", "foo.rpm"] = ["foo.rpm", "foo"] := by decide
  show (drainQueue sampleIdxFoo false (expandTokens sampleIdxFoo ["foo", "foo.rpm"]).reverse
    (expandTokens sampleIdxFoo ["foo", "foo.rpm"]) []).1 = _
  rw [he]
  show (drainQueue sampleIdxFoo false ["foo", "foo.rpm"] ["foo.rpm", "foo"] []).1 = _
  rw [@drainQueue_cons_nodeps sampleIdxFoo false "foo" ⟨"foo", 1, "", "foo.rpm", [], []⟩
    ["foo.rpm"] ["foo.rpm", "foo"] [] (by decide) (by decide)]
  show (drainQueue sampleIdxFoo false ["foo.rpm"] ["foo.rpm", "foo"] ["foo.rpm"]).1 = _
  rw [@drainQueue_cons_nodeps sampleIdxFoo false "foo.rpm" ⟨"foo", 1, "", "foo.rpm", [], []⟩
    [] ["foo.rpm", "foo"] (["foo.rpm"]) (by decide) (by decide)]
  rw [drainQueue_nil]
  rfl

/-- Counterexample for C5 as stated: requesting the set
`{"foo", "foo.rpm"}` against an index holding one package named `foo`
with filename `foo.rpm` returns that filename twice — the loop
deduplicates queued names, not result filenames. -/
theorem c5_counterexample :
    packagesDownload sampleIdxFoo ["foo", "foo.rpm"] false = ["foo.rpm", "foo.rpm"] ∧
    ¬ (packagesDownload sampleIdxFoo ["foo", "foo.rpm"] false).Nodup := by
  refine ⟨sampleIdxFoo_eval, ?_⟩
  rw [sampleIdxFoo_eval]
  decide

/-- C5 (amended): the result is deduplicated by queued name; it is
duplicate-free in filenames provided no two distinct processable names
(expanded tokens or package names) resolve to packages sharing a
filename, and every expanded name whose lookup succeeds is represented
by exactly its package filename in the result. -/
theorem c5_dedup_amended (idx : List Package) (tokens : List String) (wd : Bool)
    (Hinj : ∀ n1 ∈ expandTokens idx tokens ++ idx.map Package.name,
            ∀ n2 ∈ expandTokens idx tokens ++ idx.map Package.name, n1 ≠ n2 →
      ((findPackage idx n1).map Package.filename = (findPackage idx n2).map Package.filename →
        (findPackage idx n1).isNone = true)) :
    (packagesDownload idx tokens wd).Nodup ∧
    ∀ n ∈ expandTokens idx tokens, ∀ p, findPackage idx n = some p →
      p.filename ∈ packagesDownload idx tokens wd := by
  constructor
  · have Hinj2 : ∀ n1 ∈ expandTokens idx tokens ++ idx.map Package.name,
        ∀ n2 ∈ expandTokens idx tokens ++ idx.map Package.name, n1 ≠ n2 →
        ∀ p1 p2, findPackage idx n1 = some p1 → findPackage idx n2 = some p2 →
          p1.filename ≠ p2.filename := by
      intro n1 h1 n2 h2 hne p1 p2 hp1 hp2 hf
      have hx := Hinj n1 h1 n2 h2 hne
      rw [hp1, hp2] at hx
      have hy := hx (by simp [hf])
      rw [Option.isNone_some] at hy
      cases hy
    have hdq : (packagesDownload idx tokens wd) =
        (drainQueue idx wd (expandTokens idx tokens).reverse (expandTokens idx tokens) []).1 :=
      rfl
    rw [hdq]
    apply drain_nodup idx wd (expandTokens idx tokens ++ idx.map Package.name)
      (fun x hx => List.mem_append_right _ hx) Hinj2
    · exact List.nodup_reverse.mpr (expandTokens_nodup idx tokens)
    · exact fun n hn => List.mem_reverse.mp hn
    · exact fun n hn => List.mem_append_left _ (List.mem_reverse.mp hn)
    · exact List.nodup_nil
    · intro f hf
      cases hf
  · exact packagesDownload_covers idx tokens wd

/-- Witness for the amended C5 on the A/B sample. -/
theorem c5_dedup_amended_witness :
    (∀ n1 ∈ expandTokens specIdxAB ["B"] ++ specIdxAB.map Package.name,
     ∀ n2 ∈ expandTokens specIdxAB ["B"] ++ specIdxAB.map Package.name, n1 ≠ n2 →
       ((findPackage specIdxAB n1).map Package.filename =
          (findPackage specIdxAB n2).map Package.filename →
        (findPackage specIdxAB n1).isNone = true)) ∧
    (packagesDownload specIdxAB ["B"] true).Nodup ∧
    "fb.rpm" ∈ packagesDownload specIdxAB ["B"] true := by
  have h : ∀ n1 ∈ expandTokens specIdxAB ["B"] ++ specIdxAB.map Package.name,
      ∀ n2 ∈ expandTokens specIdxAB ["B"] ++ specIdxAB.map Package.name, n1 ≠ n2 →
        ((findPackage specIdxAB n1).map Package.filename =
           (findPackage specIdxAB n2).map Package.filename →
         (findPackage specIdxAB n1).isNone = true) := by decide
  refine ⟨h, (c5_dedup_amended specIdxAB ["B"] true h).1, ?_⟩
  have := (c5_dedup_amended specIdxAB ["B"] true h).2 "B" (by decide)
    ⟨"B", 7, "", "fb.rpm", ["b"], ["a"]⟩ (by decide)
  exact this

/-- First resolution on the P/Q/B sample: Q and B are requested, B's
requirement r is already satisfied by the seen name Q, so no dependency
is pulled. -/
theorem samplePQ_eval1 : packagesDownload sampleIdxPQ ["Q", "B"] true = ["B.rpm", "Q.rpm"] := by
  have he : expandTokens sampleIdxPQ ["Q", "B"] = ["Q", "B"] := by decide
  show (drainQueue sampleIdxPQ true (expandTokens sampleIdxPQ ["Q", "B"]).reverse
    (expandTokens sampleIdxPQ ["Q", "B"]) []).1 = _
  rw [he]
  show (drainQueue sampleIdxPQ true ["B", "Q"] ["Q", "B"] []).1 = _
  rw [@drainQueue_cons_nodeps sampleIdxPQ true "B" ⟨"B", 1, "", "B.rpm", [], ["r"]⟩
    ["Q"] ["Q", "B"] [] (by decide) (by decide)]
  show (drainQueue sampleIdxPQ true ["Q"] ["Q", "B"] ["B.rpm"]).1 = _
  rw [@drainQueue_cons_nodeps sampleIdxPQ true "Q" ⟨"Q", 1, "", "Q.rpm", ["r"], []⟩
    [] ["Q", "B"] ["B.rpm"] (by decide) (by decide)]
  rw [drainQueue_nil]
  rfl

/-- Re-resolution of the resulting filename set on the P/Q/B sample:
the seen set now holds filenames, not names, so B's requirement r looks
unsatisfied and `providers.pop()` pulls in provider P. -/
theorem samplePQ_eval2 :
    packagesDownload sampleIdxPQ ["B.rpm", "Q.rpm"] true = ["Q.rpm", "B.rpm", "P.rpm"] := by
  have he : expandTokens sampleIdxPQ ["B.rpm", "Q.rpm"] = ["B.rpm", "Q.rpm"] := by decide
  show (drainQueue sampleIdxPQ true (expandTokens sampleIdxPQ ["B.rpm", "Q.rpm"]).reverse
    (expandTokens sampleIdxPQ ["B.rpm", "Q.rpm"]) []).1 = _
  rw [he]
  show (drainQueue sampleIdxPQ true ["Q.rpm", "B.rpm"] ["B.rpm", "Q.rpm"] []).1 = _
  rw [@drainQueue_cons_nodeps sampleIdxPQ true "Q.rpm" ⟨"Q", 1, "", "Q.rpm", ["r"], []⟩
    ["B.rpm"] ["B.rpm", "Q.rpm"] [] (by decide) (by decide)]
  show (drainQueue sampleIdxPQ true ["B.rpm"] ["B.rpm", "Q.rpm"] ["Q.rpm"]).1 = _
  rw [@drainQueue_cons_deps sampleIdxPQ true "B.rpm" ⟨"B", 1, "", "B.rpm", [], ["r"]⟩
    [] ["B.rpm", "Q.rpm"] ["Q.rpm"] (by decide) (by decide)]
  show (drainQueue sampleIdxPQ true ["P"] ["B.rpm", "Q.rpm", "P"] ["Q.rpm", "B.rpm"]).1 = _
  rw [@drainQueue_cons_nodeps sampleIdxPQ true "P" ⟨"P", 1, "", "P.rpm", ["r"], []⟩
    [] ["B.rpm", "Q.rpm", "P"] ["Q.rpm", "B.rpm"] (by decide) (by decide)]
  rw [drainQueue_nil]
  rfl

/-- Counterexample for C4 as stated: feeding the resolved filename set
back in pulls in the additional package P, so the filename set grows —
re-resolution is not idempotent when a satisfied requirement has a
provider (P) different from the one that satisfied it (Q). -/
theorem c4_counterexample :
    packagesDownload sampleIdxPQ ["Q", "B"] true = ["B.rpm", "Q.rpm"] ∧
    packagesDownload sampleIdxPQ ["B.rpm", "Q.rpm"] true = ["Q.rpm", "B.rpm", "P.rpm"] ∧
    "P.rpm" ∈ packagesDownload sampleIdxPQ ["B.rpm", "Q.rpm"] true ∧
    "P.rpm" ∉ packagesDownload sampleIdxPQ ["Q", "B"] true := by
  refine ⟨samplePQ_eval1, samplePQ_eval2, ?_, ?_⟩
  · rw [samplePQ_eval2]
    decide
  · rw [samplePQ_eval1]
    decide

theorem eq_singleton_of_length_le_one (l : List String) (d : String)
    (h : l.length ≤ 1) (hd : d ∈ l) : l = [d] := by
  cases l with
  | nil => cases hd
  | cons x xs =>
    cases xs with
    | nil =>
      rw [List.mem_singleton] at hd
      rw [hd]
    | cons y ys => simp at h

/-- C4 (amended): resolution with dependencies is idempotent on the
resulting filename set provided (i) every package filename ends in
.rpm while no package name does, (ii) filenames are unique across the
index, and (iii) no requirement of an indexed package has more than one
provider name.  Without (iii), re-resolution can add the arbitrarily
chosen provider of a requirement that the first run satisfied through a
different provider (see the counterexample). -/
theorem c4_idempotent_amended (idx : List Package) (tokens : List String)
    (Hrpm : ∀ p ∈ idx, pyEndsWith p.filename ".rpm" = true ∧ pyEndsWith p.name ".rpm" = false)
    (Hinj : ∀ p ∈ idx, ∀ q ∈ idx, p.filename = q.filename → p = q)
    (Hsingle : ∀ p ∈ idx, ∀ rq ∈ p.requires, (providersOfNames idx rq).length ≤ 1) :
    ∀ f, f ∈ packagesDownload idx (packagesDownload idx tokens true) true ↔
      f ∈ packagesDownload idx tokens true := by
  have hq1nd : (expandTokens idx tokens).reverse.Nodup :=
    List.nodup_reverse.mpr (expandTokens_nodup idx tokens)
  have hq1s : ∀ n ∈ (expandTokens idx tokens).reverse, n ∈ expandTokens idx tokens :=
    fun n hn => List.mem_reverse.mp hn
  have hdone1 : ∀ n ∈ expandTokens idx tokens, n ∉ (expandTokens idx tokens).reverse →
      ∀ p, findPackage idx n = some p → p.filename ∈ ([] : List String) :=
    fun n hn hq => absurd (List.mem_reverse.mpr hn) hq
  have hdoneR1 : true = true → ∀ n ∈ expandTokens idx tokens,
      n ∉ (expandTokens idx tokens).reverse →
      ∀ p, findPackage idx n = some p → ∀ rq ∈ p.requires,
        providersOfNames idx rq ≠ [] →
        ∃ q ∈ providersOfNames idx rq, q ∈ expandTokens idx tokens :=
    fun _ n hn hq => absurd (List.mem_reverse.mpr hn) hq
  have hmain1 := drain_main idx true (expandTokens idx tokens).reverse
    (expandTokens idx tokens) [] hq1nd hq1s hdone1 hdoneR1
  have hSel : ∀ f ∈ packagesDownload idx tokens true,
      ∃ p, p ∈ idx ∧ p.filename = f ∧ findPackage idx f = some p ∧
        ∃ n, n ∈ (drainQueue idx true (expandTokens idx tokens).reverse
          (expandTokens idx tokens) []).2 ∧ findPackage idx n = some p := by
    intro f hf
    have hf2 : f ∈ (drainQueue idx true (expandTokens idx tokens).reverse
        (expandTokens idx tokens) []).1 := hf
    rcases drain_provenance idx true (expandTokens idx tokens).reverse
        (expandTokens idx tokens) [] hq1s f hf2 with h | ⟨n, hn, p, hp, hfl⟩
    · cases h
    · have hpidx : p ∈ idx := (findPackage_mem hp).1
      have hlook : findPackage idx f = some p := by
        rw [← hfl]
        exact findPackage_of_filename idx Hrpm Hinj hpidx
      exact ⟨p, hpidx, hfl, hlook, n, hn, hp⟩
  have hSrpm : ∀ t ∈ packagesDownload idx tokens true, pyEndsWith t ".rpm" = true := by
    intro t ht
    obtain ⟨p, hpidx, hfl, _, _⟩ := hSel t ht
    rw [← hfl]
    exact (Hrpm p hpidx).1
  have he2 : expandTokens idx (packagesDownload idx tokens true) =
      pyDedup (packagesDownload idx tokens true) :=
    expandTokens_all_rpm idx _ hSrpm
  have Hdep : ∀ (p : Package) (seen1 : List String), (∃ n1, findPackage idx n1 = some p) →
      p.filename ∈ packagesDownload idx tokens true →
      ∀ d ∈ checkPackageRequirements idx p seen1,
        ∀ pd, findPackage idx d = some pd → pd.filename ∈ packagesDownload idx tokens true := by
    intro p seen1 ⟨n1, hn1⟩ hpf d hd pd hpd
    obtain ⟨rq, hrq, hdprov⟩ := checkPackageRequirements_sources idx p seen1 d hd
    have hpidx : p ∈ idx := (findPackage_mem hn1).1
    have hprov1 : providersOfNames idx rq = [d] :=
      eq_singleton_of_length_le_one _ _ (Hsingle p hpidx rq hrq) hdprov
    obtain ⟨p2, hp2idx, hp2fl, _, n2, hn2mem, hn2fp⟩ := hSel p.filename hpf
    have hp2p : p2 = p := Hinj p2 hp2idx p hpidx hp2fl
    rw [hp2p] at hn2fp
    obtain ⟨q, hqmem, hqseen⟩ := hmain1.2 rfl n2 hn2mem p hn2fp rq hrq
      (by rw [hprov1]; exact List.cons_ne_nil d [])
    rw [hprov1, List.mem_singleton] at hqmem
    rw [hqmem] at hqseen
    exact hmain1.1 d hqseen pd hpd
  intro f
  constructor
  · intro hf
    have hf2 : f ∈ (drainQueue idx true
        (expandTokens idx (packagesDownload idx tokens true)).reverse
        (expandTokens idx (packagesDownload idx tokens true)) []).1 := hf
    refine drain_bound idx true (fun g => g ∈ packagesDownload idx tokens true) Hdep
      (expandTokens idx (packagesDownload idx tokens true)).reverse
      (expandTokens idx (packagesDownload idx tokens true)) [] ?_ ?_ f hf2
    · intro n hn p hp
      have hnS : n ∈ packagesDownload idx tokens true := by
        have := List.mem_reverse.mp hn
        rw [he2] at this
        exact mem_pyDedup.mp this
      obtain ⟨pn, _, hpnfl, hpnlook, _⟩ := hSel n hnS
      rw [hp] at hpnlook
      have hppn : p = pn := Option.some.inj hpnlook
      rw [hppn, hpnfl]
      exact hnS
    · intro g hg
      cases hg
  · intro hf
    obtain ⟨p, hpidx, hfl, hlook, _⟩ := hSel f hf
    have hfexp : f ∈ expandTokens idx (packagesDownload idx tokens true) := by
      rw [he2]
      exact mem_pyDedup.mpr hf
    have := packagesDownload_covers idx (packagesDownload idx tokens true) true f hfexp p hlook
    rw [hfl] at this
    exact this

/-- Witness for the amended C4 on the A/B sample. -/
theorem c4_idempotent_amended_witness :
    (∀ p ∈ specIdxAB, pyEndsWith p.filename ".rpm" = true ∧
      pyEndsWith p.name ".rpm" = false) ∧
    (∀ p ∈ specIdxAB, ∀ q ∈ specIdxAB, p.filename = q.filename → p = q) ∧
    (∀ p ∈ specIdxAB, ∀ rq ∈ p.requires, (providersOfNames specIdxAB rq).length ≤ 1) ∧
    ("fa.rpm" ∈ packagesDownload specIdxAB (packagesDownload specIdxAB ["B"] true) true ↔
      "fa.rpm" ∈ packagesDownload specIdxAB ["B"] true) :=
  ⟨by decide, by decide, by decide,
   c4_idempotent_amended specIdxAB ["B"] (by decide) (by decide) (by decide) "fa.rpm"⟩

/-- Mutable-state model for the frame claim: the heap holds the two
objects the resolver can reach by reference — the module-level
`_packages` list (with every package record's fields) and the caller's
requested token set.  Each embedded operation below threads the heap
explicitly; in the source, every in-place operation
(`providers.pop()`, `packageNames.extend/pop`, `append`, `|=`) targets
a value freshly built inside the call (`sorted(...)`, a set
comprehension, `list(...)`, `set(...)`, `[]`), never these two heap
objects, which are only read. -/
structure PyHeap where
  packages : List Package
  callerTokens : List String

/-- `_findPackage` over the heap: builds a fresh sorted list from the
package list, writing nothing. -/
def findPackageH (h : PyHeap) (packageName : String) : Option Package × PyHeap :=
  (match sortByBuildtimeDesc
      (h.packages.filter (fun p => packageName == p.name || packageName == p.filename)) with
   | [] => none
   | p :: _ => some p, h)

/-- `_checkPackageRequirements` over the heap: the requirement loop
reads the package list to build each fresh provider set and pops from
that local set only. -/
def checkPackageRequirementsH (h : PyHeap) (package : Package) (packageNames : List String) :
    List String × PyHeap :=
  (package.requires.foldl (checkStepWith id h.packages packageNames) [], h)

/-- Token expansion over the heap: reads the caller's token set (set
difference and comprehensions build new sets). -/
def expandTokensH (h : PyHeap) : List String × PyHeap :=
  (expandTokens h.packages h.callerTokens, h)

/-- Download loop over the heap: the work list, seen set and result
list are locals; the heap is touched only through the lookup and the
requirement check, whose result heaps are threaded onward. -/
def drainQueueH (wd : Bool) :
    PyHeap → List String → List String → List String → (List String × List String) × PyHeap
  | h, [], seen, acc => ((acc, seen), h)
  | h, n :: rest, seen, acc =>
    let fr := findPackageH h n
    match fr.1 with
    | none => drainQueueH wd fr.2 rest seen acc
    | some p =>
      let cr := checkPackageRequirementsH fr.2 p seen
      if wd && !cr.1.isEmpty then
        drainQueueH wd cr.2 (cr.1.reverse ++ rest) (seen ++ cr.1) (acc ++ [p.filename])
      else
        drainQueueH wd cr.2 rest seen (acc ++ [p.filename])
termination_by h queue seen _ =>
  queue.length + freshCount (pyDedup (h.packages.map Package.name)) seen
decreasing_by
  · simp only [findPackageH, List.length_cons]
    omega
  · simp only [findPackageH, checkPackageRequirementsH]
    have hspec := checkPackageRequirements_spec h.packages p seen
    have hle := freshCount_append (pyDedup (h.packages.map Package.name)) seen
      (checkPackageRequirements h.packages p seen) hspec.1
      (fun d hd => ⟨(hspec.2 d hd).1, mem_pyDedup.mpr (hspec.2 d hd).2⟩)
    simp only [checkPackageRequirements, checkRequirementsWith] at hle
    simp only [List.length_append, List.length_reverse, List.length_cons]
    omega
  · simp only [findPackageH, checkPackageRequirementsH, List.length_cons]
    omega

/-- `packagesDownload` over the heap: expansion reads the caller's set,
the loop runs on local state, and the collected filename list is
returned with the final heap. -/
def packagesDownloadH (h : PyHeap) (wd : Bool) : List String × PyHeap :=
  let ex := expandTokensH h
  let r := drainQueueH wd ex.2 ex.1.reverse ex.1 []
  (r.1.1, r.2)

theorem drainQueueH_eq (wd : Bool) : ∀ (h : PyHeap) (queue seen acc : List String),
    drainQueueH wd h queue seen acc = (drainQueue h.packages wd queue seen acc, h) := by
  intro h queue seen acc
  induction h, queue, seen, acc using drainQueueH.induct wd with
  | case1 h seen acc =>
    rw [drainQueueH, drainQueue]
  | case2 h n rest seen acc fr hfp ih =>
    rw [drainQueueH]
    rw [show (findPackageH h n).1 = none from hfp]
    rw [drainQueue]
    rw [show findPackage h.packages n = none from hfp]
    exact ih
  | case3 h n rest seen acc fr p hfp cr hc ih =>
    rw [drainQueueH]
    rw [show (findPackageH h n).1 = some p from hfp]
    rw [drainQueue]
    rw [show findPackage h.packages n = some p from hfp]
    dsimp only
    rw [if_pos (show (wd && !(checkPackageRequirementsH (findPackageH h n).2 p seen).1.isEmpty)
      = true from hc)]
    rw [if_pos (show (wd && !(checkPackageRequirements h.packages p seen).isEmpty)
      = true from hc)]
    exact ih
  | case4 h n rest seen acc fr p hfp cr hc ih =>
    rw [drainQueueH]
    rw [show (findPackageH h n).1 = some p from hfp]
    rw [drainQueue]
    rw [show findPackage h.packages n = some p from hfp]
    dsimp only
    rw [if_neg (show ¬((wd && !(checkPackageRequirementsH (findPackageH h n).2 p seen).1.isEmpty)
      = true) from hc)]
    rw [if_neg (show ¬((wd && !(checkPackageRequirements h.packages p seen).isEmpty)
      = true) from hc)]
    exact ih

/-- C10: resolution mutates nothing it can reach by reference: the
lookup, the requirement check, the token expansion and the whole
download run return the heap — the package index, every package
record's fields, and the caller's requested token set — unchanged, and
their values agree with the pure embedding. -/
theorem c10_no_mutation :
    (∀ (h : PyHeap) (n : String), findPackageH h n = (findPackage h.packages n, h)) ∧
    (∀ (h : PyHeap) (p : Package) (seen : List String),
      checkPackageRequirementsH h p seen = (checkPackageRequirements h.packages p seen, h)) ∧
    (∀ (h : PyHeap), expandTokensH h = (expandTokens h.packages h.callerTokens, h)) ∧
    (∀ (h : PyHeap) (wd : Bool),
      packagesDownloadH h wd = (packagesDownload h.packages h.callerTokens wd, h)) := by
  refine ⟨fun h n => rfl, fun h p seen => rfl, fun h => rfl, fun h wd => ?_⟩
  show ((drainQueueH wd h (expandTokens h.packages h.callerTokens).reverse
      (expandTokens h.packages h.callerTokens) []).1.1,
    (drainQueueH wd h (expandTokens h.packages h.callerTokens).reverse
      (expandTokens h.packages h.callerTokens) []).2) = _
  rw [drainQueueH_eq]
  rfl

end DownloadMingwRpm
